import Mathlib

/-!
Verification of the market-sample generation engine in
`src/mergeron/gen/data_generation.py`.

Numeric modelling conventions.  IEEE-754 double arithmetic is modelled by
exact rationals (`ℚ`); a value that the Python code makes non-finite
(`np.nan`, or the result of dividing by zero) is modelled by `none` in the
wrapper type `FP := Option ℚ`, whose arithmetic propagates `none` and whose
order comparisons on `none` are `false`, as IEEE comparisons on NaN are.
`np.round(x, d)` (round half to even at `d` decimals) is modelled exactly on
rationals by `nproundQ`.

Randomness.  The pseudorandom module `mergeron.core.pseudorandom_numbers`
(`MultithreadedRNG`, `prng`, `DIST_PARMS_DEFAULT`) is not part of the sources;
its behaviour is modelled from the spec where indicated, with the stream of
drawn values abstracted as an arbitrary function `g : SeedSeq → ℕ → ℚ` of the
seed pool, so every theorem quantifies over the values the generator could
produce.
-/

namespace Mergeron

/-- Finite double value (`some q`) or non-finite marker (`none`, for
`np.nan` and for the non-finite results of dividing by zero). -/
abbrev FP : Type := Option ℚ

/-- The `np.nan` marker. -/
def FP.nan : FP := none

/-- Wrap a finite value. -/
def fpv (q : ℚ) : FP := some q

/-- Addition with non-finite propagation. -/
def FP.add : FP → FP → FP
  | some a, some b => some (a + b)
  | _, _ => none

/-- Subtraction with non-finite propagation. -/
def FP.sub : FP → FP → FP
  | some a, some b => some (a - b)
  | _, _ => none

/-- Multiplication with non-finite propagation. -/
def FP.mul : FP → FP → FP
  | some a, some b => some (a * b)
  | _, _ => none

/-- Division; division by zero and non-finite operands give the non-finite
marker. -/
def FP.div : FP → FP → FP
  | some a, some b => if b = 0 then none else some (a / b)
  | _, _ => none

/-- `≤` as IEEE doubles compare: any comparison with NaN is `false`. -/
def FP.le : FP → FP → Bool
  | some a, some b => decide (a ≤ b)
  | _, _ => false

/-- `<` as IEEE doubles compare: any comparison with NaN is `false`. -/
def FP.lt : FP → FP → Bool
  | some a, some b => decide (a < b)
  | _, _ => false

/-- `np.ceil`, elementwise on a possibly non-finite value. -/
def FP.ceil : FP → FP
  | some a => some ((Int.ceil a : ℤ) : ℚ)
  | none => none

/-- Round half to even (numpy rounding mode) to an integer. -/
def roundHalfEven (q : ℚ) : ℤ :=
  let f : ℤ := Int.floor q
  let frac : ℚ := q - (f : ℚ)
  if frac < 1 / 2 then f
  else if 1 / 2 < frac then f + 1
  else if f % 2 = 0 then f else f + 1

/-- `np.round(q, d)`: round half to even at `d` decimal places. -/
def nproundQ (d : ℕ) (q : ℚ) : ℚ :=
  ((roundHalfEven (q * 10 ^ d) : ℤ) : ℚ) / 10 ^ d

/-- Round half to even at 4 decimals, on a possibly non-finite value. -/
def fpRound4 : FP → FP
  | some a => some (nproundQ 4 a)
  | none => none

/-- Market share distributions (`SHRConstants`). -/
inductive SHRConstants : Type
  | UNI
  | DIR_FLAT
  | DIR_FLAT_CONSTR
  | DIR_ASYM
  | DIR_COND
deriving DecidableEq, Repr

/-- `_dist_type_mktshr.name.startswith("DIR_")`. -/
def SHRConstants.isDir : SHRConstants → Bool
  | .UNI => false
  | _ => true

/-- Price specification (`PRIConstants`): symmetric, independent (`ZERO`),
or negatively / positively share-correlated. -/
inductive PRIConstants : Type
  | SYM
  | ZERO
  | NEG
  | POS
deriving DecidableEq, Repr

/-- Margin distributions (`PCMConstants`). -/
inductive PCMConstants : Type
  | UNI
  | BETA
  | BETA_BND
  | EMPR
deriving DecidableEq, Repr

/-- Firm 2 margins, derivation methods (`FM2Constants`). -/
inductive FM2Constants : Type
  | IID
  | MNL
  | SYM
deriving DecidableEq, Repr

/-- Recapture rate, derivation methods (`RECConstants`). -/
inductive RECConstants : Type
  | INOUT
  | OUTIN
  | FIXED
deriving DecidableEq, Repr

/-- Scale factors to offset sample size reduction (`SSZConstants`). -/
inductive SSZConstants : Type
  | HSR_NTH
  | HSR_TEN
  | MNL_DEP
  | ONE
deriving DecidableEq, Repr

/-- Numeric value of each scale factor. -/
def SSZConstants.val : SSZConstants → ℚ
  | .HSR_NTH => 1666667 / 1000000
  | .HSR_TEN => 1234567 / 1000000
  | .MNL_DEP => 5 / 4
  | .ONE => 1

/-- Modelled from the spec: `DIST_PARMS_DEFAULT` comes from the missing
pseudorandom module; it is the default parameter vector of the default
(Uniform) margin distribution, whose value no embedded code path reads. -/
def DIST_PARMS_DEFAULT : List ℚ := [0, 1]

/-- `MarketSampleSpec`: parameter specification for market data generation.
`share_spec` is (distribution kind, recapture derivation, optional firm-count
probability weights); `pcm_spec` is (distribution kind, firm-2 derivation,
distribution parameters). -/
structure MarketSampleSpec : Type where
  sample_size : ℕ := 10 ^ 6
  recapture_rate : ℚ := 4 / 5
  pr_sym_spec : PRIConstants := PRIConstants.SYM
  share_spec : SHRConstants × RECConstants × Option (List ℚ) :=
    (SHRConstants.UNI, RECConstants.INOUT, none)
  pcm_spec : PCMConstants × FM2Constants × List ℚ :=
    (PCMConstants.UNI, FM2Constants.IID, DIST_PARMS_DEFAULT)
  hsr_filing_test_type : SSZConstants := SSZConstants.ONE
deriving DecidableEq, Repr

/-- A `numpy.random.SeedSequence` entropy pool: externally supplied (`ext`),
created fresh inside the library (`fresh`, tags only distinguish distinct
fresh pools, in order of creation), or spawned as the `i`-th child of a
parent pool. -/
inductive SeedSeq : Type
  | ext (i : ℕ)
  | fresh (k : ℕ)
  | child (parent : SeedSeq) (i : ℕ)
deriving DecidableEq, Repr

/-- The errors the embedded pipeline can raise.  Each constructor stands for
one `raise` site (or one numpy failure mode) of the source. -/
inductive GenError : Type
  | unpack (expected got : ℕ)
  /-- `ValueError`: recapture `FIXED` with firm-2 margins `MNL`
  (`gen_market_sample`). -/
  | recaptureMnl
  /-- `ValueError`: Uniform share distribution with `OUTIN` recapture
  (`_gen_share_data`). -/
  | uniOutsideIn
  /-- `ValueError`: `OUTIN` recapture with a non-Dirichlet share distribution
  (second check, in `gen_market_sample`). -/
  | outinShareDist
  /-- `ValueError`: wrong number of Beta / Bounded-Beta parameters
  (`_gen_pcm_data`). -/
  | pcmParmCount (got : ℕ)
  /-- `NameError`: `_gen_pcm_data` calls `_beta_located_bound`, a name defined
  nowhere (the module defines `beta_located_bound`). -/
  | nameErrorBetaLocatedBound
  /-- `ValueError`: the diversion-ratio / share index consistency test failed
  (`gen_divr_array`). -/
  | divrConsistency
  /-- `IndexError`: a boolean mask whose length differs from the array it
  indexes. -/
  | maskLength
  /-- `TypeError`: the Dirichlet multisample evaluates
  `len(_firm_count_wts)` with `_firm_count_wts = None` (a Dirichlet share
  spec without firm-count probability weights). -/
  | fcountWeightsNone
  /-- `ValueError` (`DATA GENERATION ERROR`): the fatal share-sum
  consistency check of `gen_market_shares_dirichlet` and of
  `gen_market_shares_dirichlet_multisample` (two raise sites with the same
  message). -/
  | shareSumConsistency
deriving DecidableEq, Repr

/-- The quadruple of seed pools returned by `parse_seed_seq_list`, in the
fixed assignment order: share draws, margin draws, firm-count draws (Dirichlet
only), price draws (independent-price modes only). -/
structure SeedQuad : Type where
  mktshr : SeedSeq
  pcm : SeedSeq
  fcount : Option SeedSeq
  price : Option SeedSeq
deriving DecidableEq, Repr

/-- `list.pop()`: remove and return the last element. -/
def popLast (l : List SeedSeq) : Option (SeedSeq × List SeedSeq) :=
  match l.reverse with
  | [] => none
  | a :: r => some (a, r.reverse)

/-- `parse_seed_seq_list(_sseq_list, _dist_type_mktshr, _pr_sym_spec)`.

The second component of the result is the caller's list after the call:
the single `pop()` in the price branch is the only mutation, and it persists
even when the subsequent unpacking raises.  Fresh pools are
`SeedSequence(pool_size=8)` objects, tagged in order of creation. -/
def parse_seed_seq_list (sseqList : Option (List SeedSeq))
    (distTypeMktshr : SHRConstants) (prSymSpec : PRIConstants) :
    Except GenError SeedQuad × Option (List SeedSeq) :=
  let popped : Option SeedSeq × Option (List SeedSeq) :=
    if prSymSpec = PRIConstants.SYM then (none, sseqList)
    else
      match sseqList with
      | none => (some (SeedSeq.fresh 0), none)
      | some l =>
        match popLast l with
        | none => (some (SeedSeq.fresh 0), some l)
        | some (x, rest) => (some x, some rest)
  let prPool := popped.1
  let st := popped.2
  let result : Except GenError SeedQuad :=
    match st with
    | some (a :: rest) =>
      if distTypeMktshr = SHRConstants.UNI then
        match rest with
        | b :: _ => Except.ok ⟨a, b, none, prPool⟩
        | [] => Except.error (GenError.unpack 2 1)
      else
        match rest with
        | b :: c :: _ => Except.ok ⟨a, b, some c, prPool⟩
        | _ => Except.error (GenError.unpack 3 (a :: rest).length)
    | _ =>
      if distTypeMktshr = SHRConstants.UNI then
        Except.ok ⟨SeedSeq.fresh 1, SeedSeq.fresh 2, none, prPool⟩
      else
        Except.ok ⟨SeedSeq.fresh 1, SeedSeq.fresh 2, some (SeedSeq.fresh 3), prPool⟩
  (result, st)

/-! ## Parallel Variate Filler, modelled from the spec

`MultithreadedRNG` lives in `mergeron.core.pseudorandom_numbers`, which is not
among the sources.  Per spec §4.2/§5 the filler partitions the buffer rows
into contiguous disjoint chunks whose number is independent of the requested
thread count, spawns one child stream per chunk from the seed pool, and the
resulting values are a deterministic function of the seed pool alone.  The
draw values themselves are abstracted as a function `g` of the child stream
and the index within it. -/

/-- Modelled from the spec: the fixed, thread-count-independent number of
chunks the filler splits a buffer into. -/
def mtChunkCount : ℕ := 16

/-- Modelled from the spec: rows per chunk for an `nrows`-row buffer. -/
def chunkCapacity (nrows : ℕ) : ℕ := max 1 ((nrows + mtChunkCount - 1) / mtChunkCount)

/-- Modelled from the spec: row `r` of a two-column buffer, drawn from the
child stream of the chunk containing `r` (`g` gives the draw values). -/
def fillPairRow (g : SeedSeq → ℕ → ℚ) (seed : SeedSeq) (csz r : ℕ) : ℚ × ℚ :=
  (g (SeedSeq.child seed (r / csz)) (2 * (r % csz)),
   g (SeedSeq.child seed (r / csz)) (2 * (r % csz) + 1))

/-- Modelled from the spec: `MultithreadedRNG(buffer, ...).fill()` on a
pre-allocated `nrows × 2` buffer.  The `nthreads` argument is accepted, as in
the source, and per the spec contract it does not influence the values. -/
def mtFillPair (g : SeedSeq → ℕ → ℚ) (seed : SeedSeq) (nrows : ℕ)
    (_nthreads : ℕ) : List (ℚ × ℚ) :=
  (List.range nrows).map (fillPairRow g seed (chunkCapacity nrows))

/-- Modelled from the spec: row `r` of an `ncols`-column buffer, drawn from
the child stream of the chunk containing `r` — the same chunk scheme as
`fillPairRow`, for an arbitrary column count. -/
def fillMultiRow (g : SeedSeq → ℕ → ℚ) (seed : SeedSeq) (csz ncols r : ℕ) :
    List ℚ :=
  (List.range ncols).map
    (fun c => g (SeedSeq.child seed (r / csz)) (ncols * (r % csz) + c))

/-- Modelled from the spec: `MultithreadedRNG(buffer, ...).fill()` on a
pre-allocated `nrows × ncols` buffer (the Dirichlet fill).  As with
`mtFillPair`, the `nthreads` argument is accepted and, per the spec
contract, does not influence the values. -/
def mtFillMulti (g : SeedSeq → ℕ → ℚ) (seed : SeedSeq) (nrows ncols : ℕ)
    (_nthreads : ℕ) : List (List ℚ) :=
  (List.range nrows).map (fillMultiRow g seed (chunkCapacity nrows) ncols)

/-- Modelled from the spec: one draw of `prng(seed).choice(_fcount_keys,
p=_choice_wts)` from the missing pseudorandom module — a firm-count key
selected as a deterministic function of the firm-count seed pool alone.
The probability weights shape the draws' distribution, which the abstract
draw model leaves unconstrained; the value always lies in `keys`. -/
def fcountChoiceRow (g : SeedSeq → ℕ → ℚ) (seed : SeedSeq) (keys : List ℕ)
    (r : ℕ) : ℕ :=
  keys.getD (Int.toNat (Int.floor (g seed r)) % keys.length) 2

/-! ## Data containers -/

/-- `ShareDataSample`, in the shape the Uniform branch produces: the market
share array has the two merging-firm columns and the synthetic third column,
and the remaining fields are per-row scalars (NaN-filled for Uniform). -/
structure ShareDataSample : Type where
  mktshr : List (ℚ × ℚ × FP)
  fcounts : List FP
  nth_firm_share : List FP
  choice_prob_outgd : List FP
deriving DecidableEq, Repr

/-- `ShareDataSample`, in the shape the Dirichlet generators produce: each
share-array row is all-real, with the stratum's column count. -/
structure DirShareSample : Type where
  mktshr : List (List ℚ)
  fcounts : List FP
  nth_firm_share : List FP
  choice_prob_outgd : List FP
deriving DecidableEq, Repr

/-- The share-data shape `gen_market_sample` consumes: each share-array row
is split into the two merging-firm columns (always finite, read downstream
through the `[:, :2]` slices) and the remaining columns (the single `np.nan`
marker under Uniform; real higher-firm shares plus zero padding under
Dirichlet), over which only the HHI `einsum` ranges. -/
structure ShareDataSampleG : Type where
  mktshr : List (ℚ × ℚ × List FP)
  fcounts : List FP
  nth_firm_share : List FP
  choice_prob_outgd : List FP
deriving DecidableEq, Repr

/-- A Uniform-branch sample in the shape `gen_market_sample` consumes: the
same array, with the synthetic third column as the row remainder. -/
def ShareDataSample.toG (sd : ShareDataSample) : ShareDataSampleG :=
  { mktshr := sd.mktshr.map (fun t => (t.1, t.2.1, [t.2.2]))
    fcounts := sd.fcounts
    nth_firm_share := sd.nth_firm_share
    choice_prob_outgd := sd.choice_prob_outgd }

/-- `PriceDataSample`: generated price array and HSR filing-test mask. -/
structure PriceDataSample : Type where
  price_array : List (ℚ × ℚ)
  hsr_filing_test : List Bool
deriving DecidableEq, Repr

/-- `MarketSample`: container for the generated market data sample. -/
structure MarketSample : Type where
  frmshr_array : List (ℚ × ℚ)
  pcm_array : List (FP × FP)
  price_array : List (ℚ × ℚ)
  fcounts : List FP
  choice_prob_outgd : List FP
  nth_firm_share : List FP
  divr_array : List (FP × FP)
  hhi_post : List FP
  hhi_delta : List ℚ
deriving DecidableEq, Repr

/-! ## Share Generator, Uniform branch -/

/-- Map one row of two `U(0,1)` draws to the simplex: sort ascending, then
`(s1, s2) = (min, max − min)`. -/
def uniformSimplexRow (p : ℚ × ℚ) : ℚ × ℚ :=
  (min p.1 p.2, max p.1 p.2 - min p.1 p.2)

/-- Row filter of `gen_market_shares_uniform`: keep rows with
`_frmshr_array.min(axis=1) > 0`. -/
def shareRowKept (r : ℚ × ℚ) : Bool := decide (0 < min r.1 r.2)

/-- `gen_market_shares_uniform`, as a function of the filled draw buffer:
transform to the simplex, discard boundary rows, pad a third column of
`np.nan`, and return NaN-filled firm-count / nth-share / outside-good
columns of the original buffer length. -/
def gen_market_shares_uniform (draws : List (ℚ × ℚ)) : ShareDataSample :=
  let frmshr := ((draws.map uniformSimplexRow).filter shareRowKept)
  { mktshr := frmshr.map (fun r => (r.1, r.2, FP.nan))
    fcounts := draws.map (fun _ => FP.nan)
    nth_firm_share := draws.map (fun _ => FP.nan)
    choice_prob_outgd := draws.map (fun _ => FP.nan) }

/-! ## Share Generator, Dirichlet branch -/

/-- `gen_market_shares_dirichlet`: Dirichlet-distributed shares with a fixed
firm count.  Under `OUTIN` the shape vector gains one extra column (a copy
of its last entry, `_dir_alphas[-1:]`) for the outside good; after the fill
and the fatal share-sum consistency check, that column becomes the
outside-good choice probability and the remaining columns are renormalized
by `1 − choice_prob` (plain field division; the measure-zero
`choice_prob = 1` row, non-finite in floats, is outside every claim). -/
def gen_market_shares_dirichlet (dirAlphas : List ℚ) (sSize : ℕ)
    (recaptureSpec : RECConstants) (mktshrSeedSeq : Option SeedSeq)
    (nthreads : ℕ) (g : SeedSeq → ℕ → ℚ) : Except GenError DirShareSample :=
  let dirAlphas1 :=
    if recaptureSpec = RECConstants.OUTIN then
      dirAlphas ++ dirAlphas.drop (dirAlphas.length - 1)
    else dirAlphas
  let seedCh := mktshrSeedSeq.getD (SeedSeq.fresh 0)
  let mktshrArray := mtFillMulti g seedCh sSize dirAlphas1.length nthreads
  let iss : ℤ := roundHalfEven ((mktshrArray.map (fun row => row.sum)).sum)
  if iss ≠ (sSize : ℤ) ∨ iss ≠ (mktshrArray.length : ℤ) then
    Except.error GenError.shareSumConsistency
  else
    let final : List (List ℚ) × List FP :=
      if recaptureSpec = RECConstants.OUTIN then
        (mktshrArray.map (fun row =>
          row.dropLast.map (fun c => c / (1 - (row.getLast?).getD 0))),
         mktshrArray.map (fun row => fpv ((row.getLast?).getD 0)))
      else (mktshrArray, List.replicate sSize FP.nan)
    Except.ok
      { mktshr := final.1
        fcounts := List.replicate sSize
          (fpv ((if recaptureSpec = RECConstants.OUTIN then
            dirAlphas1.length - 1 else dirAlphas1.length : ℕ) : ℚ))
        nth_firm_share := final.1.map (fun row => fpv ((row.getLast?).getD 0))
        choice_prob_outgd := final.2 }

/-- Position of row `r` within its firm-count stratum: the number of earlier
rows with the same drawn key (`np.where(_fcounts == _f_val)[0]` lists a
stratum's rows in increasing order, so the scatter assigns the stratum
sample's rows in this order). -/
def strataRowIndex (fcounts : List ℕ) (r : ℕ) : ℕ :=
  ((fcounts.take r).filter (fun k => k = fcounts.getD r 0)).length

/-- The scatter / assembly phase of the Dirichlet multisample generator:
place each stratum sample's rows at that stratum's row positions, zero-pad
every row to `fcMax` columns, run the fatal share-sum consistency check on
the assembled array, and package the arrays (the firm-count column is cast
to float, the outside-good and nth-share columns are scattered from their
strata). -/
def dirMultisampleAssemble (sSize fcMax : ℕ) (fcounts : List ℕ)
    (strata : List (ℕ × DirShareSample)) : Except GenError ShareDataSampleG :=
  let stratumOf : ℕ → DirShareSample := fun key =>
    ((strata.find? (fun p => p.1 = key)).getD (0, ⟨[], [], [], []⟩)).2
  let mktshrArray : List (List ℚ) := (List.range sSize).map (fun r =>
    let row := ((stratumOf (fcounts.getD r 0)).mktshr.getD
      (strataRowIndex fcounts r) [])
    row ++ List.replicate (fcMax - row.length) 0)
  let iss : ℤ := roundHalfEven ((mktshrArray.map (fun row => row.sum)).sum)
  if iss ≠ (sSize : ℤ) ∨ iss ≠ (mktshrArray.length : ℤ) then
    Except.error GenError.shareSumConsistency
  else
    Except.ok
      { mktshr := mktshrArray.map (fun row =>
          (row.getD 0 0, row.getD 1 0, (row.drop 2).map fpv))
        fcounts := fcounts.map (fun k => fpv (k : ℚ))
        nth_firm_share := (List.range sSize).map (fun r =>
          (stratumOf (fcounts.getD r 0)).nth_firm_share.getD
            (strataRowIndex fcounts r) FP.nan)
        choice_prob_outgd := (List.range sSize).map (fun r =>
          (stratumOf (fcounts.getD r 0)).choice_prob_outgd.getD
            (strataRowIndex fcounts r) FP.nan) }

/-- `gen_market_shares_dirichlet_multisample`: Dirichlet-distributed shares
stratified by a drawn firm count.

Mirrors the source: weight buckets below the `DIR_FLAT_CONSTR` threshold are
dropped (an empty remainder reproduces the `zip(*())` unpacking
`ValueError`); `None` weights reproduce the `len(None)` `TypeError`; the
per-firm-count shape vectors follow the flat / asymmetric / conditional
schemes; one child stream is spawned per distinct firm-count key; each
stratum's sample is scattered back into the full-size arrays at its rows and
zero-padded to `_fc_max` columns; and the fatal share-sum consistency check
runs on the assembled array.  The probability weights are normalized only to
select the kept buckets; the drawn keys themselves come from the
spec-modelled `fcountChoiceRow`.  The caller always supplies the share seed
pool, as `gen_market_sample` does (the source's `None` default feeds a
`strict=True` zip that no embedded claim exercises). -/
def gen_market_shares_dirichlet_multisample (sSize : ℕ)
    (distTypeDir : SHRConstants) (recaptureSpec : RECConstants)
    (firmCountWts : Option (List ℚ)) (fcountSeed : Option SeedSeq)
    (mktshrSeed : SeedSeq) (nthreads : ℕ) (g : SeedSeq → ℕ → ℚ) :
    Except GenError ShareDataSampleG :=
  match firmCountWts with
  | none => Except.error GenError.fcountWeightsNone
  | some wts =>
    let minChoiceWt : ℚ :=
      if distTypeDir = SHRConstants.DIR_FLAT_CONSTR then 3 / 100 else 0
    let kept :=
      ((List.range wts.length).map
        (fun i => (2 + i, wts.getD i 0 / wts.sum))).filter
        (fun p => decide (minChoiceWt < p.2))
    match kept with
    | [] => Except.error (GenError.unpack 2 0)
    | _ :: _ =>
      let fcountKeys := kept.map (fun p => p.1)
      let fcMax := (fcountKeys.getLast?).getD 0
      let dirAlphasFull : List ℚ :=
        if distTypeDir = SHRConstants.DIR_ASYM then
          List.replicate 6 2 ++ List.replicate 5 (3 / 2) ++
            List.replicate (min 7 fcMax) (5 / 4)
        else List.replicate fcMax 1
      let genDirAlphas : ℕ → List ℚ := fun fcv =>
        if distTypeDir = SHRConstants.DIR_COND then
          [5 / 2, 5 / 2] ++
            (if 2 < fcv then List.replicate (fcv - 2) (1 / ((fcv : ℚ) - 2))
             else [])
        else dirAlphasFull.take fcv
      let fcounts : List ℕ := (List.range sSize).map
        (fcountChoiceRow g (fcountSeed.getD (SeedSeq.fresh 0)) fcountKeys)
      let strataE : Except GenError (List (ℕ × DirShareSample)) :=
        (List.range fcountKeys.length).foldl
          (fun acc i =>
            match acc with
            | Except.error e => Except.error e
            | Except.ok ls =>
              let key := fcountKeys.getD i 0
              match gen_market_shares_dirichlet (genDirAlphas key)
                  (fcounts.filter (fun k => k = key)).length recaptureSpec
                  (some (SeedSeq.child mktshrSeed i)) nthreads g with
              | Except.error e => Except.error e
              | Except.ok s => Except.ok (ls ++ [(key, s)]))
          (Except.ok [])
      match strataE with
      | Except.error e => Except.error e
      | Except.ok strata => dirMultisampleAssemble sSize fcMax fcounts strata

/-- `_gen_share_data`: the Uniform branch validates that recapture is not
`OUTIN` and generates shares from the filler; the Dirichlet branches
delegate to the stratified multisample generator. -/
def _gen_share_data (spec : MarketSampleSpec) (g : SeedSeq → ℕ → ℚ)
    (fcountSeed : Option SeedSeq) (mktshrSeed : SeedSeq) (nthreads : ℕ) :
    Except GenError ShareDataSampleG :=
  match spec.share_spec.1 with
  | SHRConstants.UNI =>
    if spec.share_spec.2.1 = RECConstants.OUTIN then
      Except.error GenError.uniOutsideIn
    else
      Except.ok (gen_market_shares_uniform
        (mtFillPair g mktshrSeed spec.sample_size nthreads)).toG
  | _ =>
    gen_market_shares_dirichlet_multisample spec.sample_size
      spec.share_spec.1 spec.share_spec.2.1 spec.share_spec.2.2 fcountSeed
      mktshrSeed nthreads g

/-! ## Price and Filing-Test Generator -/

/-- Modelled from the spec: one row of the three price draws that the
independent-price mode (`PRIConstants.ZERO`) takes from `prng(seed).choice`
in the missing pseudorandom module; abstracted as seed-pool-determined
values of `g`. -/
def priceDrawRow (g : SeedSeq → ℕ → ℚ) (seed : SeedSeq) (r : ℕ) : ℚ × ℚ × ℚ :=
  (g seed (3 * r), g seed (3 * r + 1), g seed (3 * r + 2))

/-- `_gen_pr_ratio`: produce the merging-firm price array and the nth-firm
price per the symmetry mode, then the HSR filing-test mask per the
configured test type (all-true for `SSZConstants.ONE`). -/
def _gen_pr_ratio (frmshr : List (ℚ × ℚ)) (nth : List FP)
    (spec : MarketSampleSpec) (g : SeedSeq → ℕ → ℚ) (seedSeq : Option SeedSeq) :
    PriceDataSample :=
  let n := frmshr.length
  let prMaxRatio : ℚ := 5
  let prices : List (ℚ × ℚ) × List FP :=
    match spec.pr_sym_spec with
    | PRIConstants.SYM =>
      (frmshr.map (fun _ => ((1 : ℚ), (1 : ℚ))), List.replicate n (fpv 1))
    | PRIConstants.POS =>
      (frmshr.map (fun p =>
          (((Int.ceil (p.1 * prMaxRatio) : ℤ) : ℚ),
           ((Int.ceil (p.2 * prMaxRatio) : ℤ) : ℚ))),
       nth.map (fun x => FP.ceil (FP.mul x (fpv prMaxRatio))))
    | PRIConstants.NEG =>
      (frmshr.map (fun p =>
          (((Int.ceil ((1 - p.1) * prMaxRatio) : ℤ) : ℚ),
           ((Int.ceil ((1 - p.2) * prMaxRatio) : ℤ) : ℚ))),
       nth.map (fun x => FP.ceil (FP.mul (FP.sub (fpv 1) x) (fpv prMaxRatio))))
    | PRIConstants.ZERO =>
      let sd := seedSeq.getD (SeedSeq.fresh 0)
      ((List.range n).map (fun r => ((priceDrawRow g sd r).1, (priceDrawRow g sd r).2.1)),
       (List.range n).map (fun r => fpv (priceDrawRow g sd r).2.2))
  let priceArray := prices.1
  let nthFirmPrice := prices.2
  let revArray : List (ℚ × ℚ) :=
    (priceArray.zip frmshr).map (fun q => (q.1.1 * q.2.1, q.1.2 * q.2.2))
  let nthFirmRev : List FP :=
    (nthFirmPrice.zip nth).map (fun q => FP.mul q.1 q.2)
  let testRevRatio : ℚ := 10
  let testRevRatioInv : ℚ := 1 / 10
  let hsrFilingTest : List Bool :=
    match spec.hsr_filing_test_type with
    | SSZConstants.HSR_TEN =>
      revArray.map (fun q =>
        decide (testRevRatioInv ≤ nproundQ 4 (min q.1 q.2 / max q.1 q.2)))
    | SSZConstants.HSR_NTH =>
      ((revArray.zip nthFirmRev).zip frmshr).map (fun q =>
        (FP.lt (fpv 1) (fpRound4 (FP.div (fpv (min q.1.1.1 q.1.1.2)) q.1.2)) &&
         FP.lt (fpv testRevRatio)
           (fpRound4 (FP.div (fpv (max q.1.1.1 q.1.1.2)) q.1.2))) ||
        decide (testRevRatioInv ≤ min q.2.1 q.2.2))
    | _ => List.replicate n true
  { price_array := priceArray, hsr_filing_test := hsrFilingTest }

/-! ## Diversion-Ratio Calculator -/

/-- Purchase-probability form of the diversion ratios: given a one-minus-
outside-good choice probability for a row, `d_i` is the opposite firm's
purchase probability over one minus the own purchase probability. -/
def divrFromOneMinus (om : FP) (p : ℚ × ℚ) : FP × FP :=
  let pp1 := FP.mul om (fpv p.1)
  let pp2 := FP.mul om (fpv p.2)
  (FP.div pp2 (FP.sub (fpv 1) pp1), FP.div pp1 (FP.sub (fpv 1) pp2))

/-- Inside-out effective one-minus-outside-good probability:
`r_bar / (1 − (1 − r_bar) · min(s1, s2))`. -/
def inoutOneMinus (rBar : ℚ) (p : ℚ × ℚ) : FP :=
  FP.div (fpv rBar) (fpv (1 - (1 - rBar) * min p.1 p.2))

/-- `np.argmin` over a share row (first index on ties). -/
def argminQ (p : ℚ × ℚ) : ℕ := if p.1 ≤ p.2 then 0 else 1

/-- `np.argmax` over a diversion-ratio row; a NaN entry wins, as in numpy. -/
def argmaxFP : FP × FP → ℕ
  | (none, _) => 0
  | (some _, none) => 1
  | (some a, some b) => if a < b then 1 else 0

/-- One row of the consistency test of `gen_divr_array`: the row share sum
rounds to 1 at 15 decimals, or the index of the smaller share equals the
index of the larger diversion ratio. -/
def divrTestRow (p : ℚ × ℚ) (d : FP × FP) : Bool :=
  decide (nproundQ 15 (p.1 + p.2) = 1) || decide (argminQ p = argmaxFP d)

/-- `gen_divr_array(_frmshr_array, _r_bar, _recapture_spec,
_choice_prob_outgd)`: compute the diversion ratios per the recapture mode,
run the fatal consistency test, and return the ratios together with the
outside-good choice probability (an updated one under `INOUT`). -/
def gen_divr_array (frmshr : List (ℚ × ℚ)) (rBar : ℚ) (recaptureSpec : RECConstants)
    (choiceProbOutgd : List FP) :
    Except GenError (List (FP × FP) × List FP) :=
  let divrArray : List (FP × FP) :=
    match recaptureSpec with
    | RECConstants.FIXED =>
      frmshr.map (fun p =>
        (FP.div (fpv (rBar * p.2)) (fpv (1 - p.1)),
         FP.div (fpv (rBar * p.1)) (fpv (1 - p.2))))
    | RECConstants.INOUT =>
      frmshr.map (fun p => divrFromOneMinus (inoutOneMinus rBar p) p)
    | RECConstants.OUTIN =>
      (frmshr.zip choiceProbOutgd).map (fun q =>
        divrFromOneMinus (FP.sub (fpv 1) q.2) q.1)
  let cpoOut : List FP :=
    match recaptureSpec with
    | RECConstants.INOUT =>
      frmshr.map (fun p => FP.sub (fpv 1) (inoutOneMinus rBar p))
    | _ => choiceProbOutgd
  if (frmshr.zip divrArray).all (fun q => divrTestRow q.1 q.2) then
    Except.ok (divrArray, cpoOut)
  else Except.error GenError.divrConsistency

/-! ## Margin (PCM) Generator -/

/-- Shape parameters of the standard Beta with given mean and stddev
(`_beta_located`). -/
def _beta_located (mu sigma : ℚ) : List ℚ :=
  let mul := (mu - mu ^ 2 - sigma ^ 2) / sigma ^ 2
  [mu * mul, (1 - mu) * mul]

/-- Shape parameters for a non-standard Beta given mean, stddev and range
(`beta_located_bound`); the module defines this name, but `_gen_pcm_data`
calls the undefined `_beta_located_bound` instead. -/
def beta_located_bound (distParms : List ℚ) : List ℚ :=
  match distParms with
  | bmu :: bsigma :: bmin :: bmax :: _ =>
    _beta_located ((bmu - bmin) / (bmax - bmin)) (bsigma / (bmax - bmin))
  | _ => []

/-- The MNL first-order-condition override of firm 2's margin:
`price1 · pcm1 · (1 − purchprob1) / (price2 · (1 − purchprob2))` with
`purchprob_i = (1 − choice_prob_outgd) · share_i`. -/
def pcmMnlRow (cp : FP) (s : ℚ × ℚ) (price : ℚ × ℚ) (pcm1 : FP) : FP :=
  let pp1 := FP.mul (FP.sub (fpv 1) cp) (fpv s.1)
  let pp2 := FP.mul (FP.sub (fpv 1) cp) (fpv s.2)
  FP.div (FP.mul (fpv price.1) (FP.mul pcm1 (FP.sub (fpv 1) pp1)))
    (FP.mul (fpv price.2) (FP.sub (fpv 1) pp2))

/-- `_gen_pcm_data(_frmshr_array, _mkt_sample_spec, _price_array,
_choice_prob_outgd, ...)`, as a function of the filled margin-draw buffer
(`pcmDraws` stands for the filler's output, or for the externally resampled
empirical margins under `PCMConstants.EMPR`).

Parameter-count validation mirrors the source: Beta requires 2 parameters
and Bounded Beta 4.  The Bounded-Beta branch then evaluates the undefined
name `_beta_located_bound`, so it raises `NameError` before any draw is
used; the rescale step below it is consequently unreachable. -/
def _gen_pcm_data (frmshr : List (ℚ × ℚ)) (spec : MarketSampleSpec)
    (priceArray : List (ℚ × ℚ)) (choiceProbOutgd : List FP)
    (pcmDraws : List (ℚ × ℚ)) :
    Except GenError (List (FP × FP) × List Bool) :=
  let recaptureSpec := spec.share_spec.2.1
  let distTypePcm := spec.pcm_spec.1
  let distFirm2Pcm := spec.pcm_spec.2.1
  let distParmsPcm := spec.pcm_spec.2.2
  let drawn : Except GenError (List (FP × FP)) :=
    match distTypePcm with
    | PCMConstants.EMPR =>
      Except.ok (pcmDraws.map (fun p => (fpv p.1, fpv p.2)))
    | PCMConstants.BETA =>
      if distParmsPcm.length ≠ 2 then
        Except.error (GenError.pcmParmCount distParmsPcm.length)
      else Except.ok (pcmDraws.map (fun p => (fpv p.1, fpv p.2)))
    | PCMConstants.BETA_BND =>
      if distParmsPcm.length ≠ 4 then
        Except.error (GenError.pcmParmCount distParmsPcm.length)
      else Except.error GenError.nameErrorBetaLocatedBound
    | PCMConstants.UNI =>
      Except.ok (pcmDraws.map (fun p => (fpv p.1, fpv p.2)))
  match drawn with
  | Except.error e => Except.error e
  | Except.ok pcmArray0 =>
    let pcmArray1 : List (FP × FP) :=
      if distTypePcm = PCMConstants.BETA_BND then
        match distParmsPcm with
        | _ :: _ :: bmin :: bmax :: _ =>
          pcmArray0.map (fun p =>
            (FP.add (FP.mul (fpv (bmax - bmin)) p.1) (fpv bmin),
             FP.add (FP.mul (fpv (bmax - bmin)) p.2) (fpv bmin)))
        | _ => pcmArray0
      else pcmArray0
    if distFirm2Pcm = FM2Constants.MNL ∧ recaptureSpec ≠ RECConstants.FIXED then
      let rows := ((frmshr.zip priceArray).zip (choiceProbOutgd.zip pcmArray1))
      let pcmArray : List (FP × FP) :=
        rows.map (fun q => (q.2.2.1, pcmMnlRow q.2.1 q.1.1 q.1.2 q.2.2.1))
      let mnlTest : List Bool :=
        pcmArray.map (fun p => FP.le (fpv 0) p.2 && FP.le p.2 (fpv 1))
      Except.ok (pcmArray, mnlTest)
    else
      let pcmArray : List (FP × FP) :=
        if distFirm2Pcm = FM2Constants.SYM then
          pcmArray1.map (fun p => (p.1, p.1))
        else pcmArray1
      Except.ok (pcmArray, List.replicate pcmArray.length true)

/-! ## Sample Assembler -/

/-- Boolean-mask indexing, `array[mask]`: numpy raises when the mask length
differs from the array length. -/
def boolMask (mask : List Bool) (l : List α) : Except GenError (List α) :=
  if mask.length = l.length then
    Except.ok ((l.zip mask).filterMap (fun q => if q.2 then some q.1 else none))
  else Except.error GenError.maskLength

/-- Sum of squares over the trailing columns (beyond the two merging firms)
of a final share row. -/
def restSumSq (cells : List FP) : FP :=
  cells.foldr (fun c acc => FP.add (FP.mul c c) acc) (fpv 0)

/-- `hhi_delta` of one final share row: `einsum` of the merging-firm share
row with its reverse, `s1·s2 + s2·s1`. -/
def hhiDeltaRow (t : ℚ × ℚ × List FP) : ℚ := t.1 * t.2.1 + t.2.1 * t.1

/-- `hhi_post` of one final share row: `hhi_delta` plus the sum of squared
cells over all columns (under Uniform shares the single trailing column is
the synthetic NaN column; under Dirichlet shares the trailing columns are
the remaining firms' shares with their zero padding). -/
def hhiPostRow (t : ℚ × ℚ × List FP) : FP :=
  FP.add (fpv (hhiDeltaRow t))
    (FP.add (fpv (t.1 * t.1)) (FP.add (fpv (t.2.1 * t.2.1)) (restSumSq t.2.2)))

/-- The scaled-up number of initial draws: `int(sample_size · hsr_factor ·
(mnl_factor if MNL else 1))`, with the float scale constants taken as exact
rationals. -/
def inflatedSize (spec : MarketSampleSpec) : ℕ :=
  Int.toNat (Int.floor ((spec.sample_size : ℚ) * spec.hsr_filing_test_type.val *
    (if spec.pcm_spec.2.1 = FM2Constants.MNL then SSZConstants.MNL_DEP.val else 1)))

/-- The filing-test masking block of `gen_market_sample` (lines applying
`_f[_price_data.hsr_filing_test]` to the five arrays when a filing test is
configured, and passing them through unchanged otherwise). -/
def hsrMaskStage (hsrType : SSZConstants) (shareData : ShareDataSampleG)
    (priceData : PriceDataSample) :
    Except GenError
      (List (ℚ × ℚ × List FP) × List FP × List FP × List FP × List (ℚ × ℚ)) :=
  if hsrType = SSZConstants.ONE then
    Except.ok (shareData.mktshr, shareData.fcounts,
      shareData.choice_prob_outgd, shareData.nth_firm_share,
      priceData.price_array)
  else
    match boolMask priceData.hsr_filing_test shareData.mktshr with
    | Except.error e => Except.error e
    | Except.ok mktshrM =>
      match boolMask priceData.hsr_filing_test shareData.fcounts with
      | Except.error e => Except.error e
      | Except.ok fcountsM =>
        match boolMask priceData.hsr_filing_test shareData.choice_prob_outgd with
        | Except.error e => Except.error e
        | Except.ok cpoM =>
          match boolMask priceData.hsr_filing_test shareData.nth_firm_share with
          | Except.error e => Except.error e
          | Except.ok nthM =>
            match boolMask priceData.hsr_filing_test priceData.price_array with
            | Except.error e => Except.error e
            | Except.ok priceM =>
              Except.ok (mktshrM, fcountsM, cpoM, nthM, priceM)

/-- The feasibility-mask / truncation block of `gen_market_sample` (the
`_f[_mnl_test_rows][:_s_size]` / `_f[:_s_size]` generator expression over the
seven arrays). -/
def finalStage (distFirm2Pcm : FM2Constants) (sSize : ℕ)
    (mktshrArr : List (ℚ × ℚ × List FP)) (pcmArr : List (FP × FP))
    (priceArr : List (ℚ × ℚ)) (fcounts : List FP) (cpo1 : List FP)
    (nth : List FP) (divrArr : List (FP × FP)) (mnlTestRows : List Bool) :
    Except GenError
      (List (ℚ × ℚ × List FP) × List (FP × FP) × List (ℚ × ℚ) ×
       List FP × List FP × List FP × List (FP × FP)) :=
  if distFirm2Pcm = FM2Constants.MNL then
    match boolMask mnlTestRows mktshrArr with
    | Except.error e => Except.error e
    | Except.ok a₁ =>
      match boolMask mnlTestRows pcmArr with
      | Except.error e => Except.error e
      | Except.ok a₂ =>
        match boolMask mnlTestRows priceArr with
        | Except.error e => Except.error e
        | Except.ok a₃ =>
          match boolMask mnlTestRows fcounts with
          | Except.error e => Except.error e
          | Except.ok a₄ =>
            match boolMask mnlTestRows cpo1 with
            | Except.error e => Except.error e
            | Except.ok a₅ =>
              match boolMask mnlTestRows nth with
              | Except.error e => Except.error e
              | Except.ok a₆ =>
                match boolMask mnlTestRows divrArr with
                | Except.error e => Except.error e
                | Except.ok a₇ =>
                  Except.ok (a₁.take sSize, a₂.take sSize, a₃.take sSize,
                    a₄.take sSize, a₅.take sSize, a₆.take sSize, a₇.take sSize)
  else
    Except.ok (mktshrArr.take sSize, pcmArr.take sSize, priceArr.take sSize,
      fcounts.take sSize, cpo1.take sSize, nth.take sSize, divrArr.take sSize)

/-- `gen_market_sample(_mkt_sample_spec, seed_seq_list=…, nthreads=…)`, with
the pseudorandom draw values abstracted by `g`.  Mirrors the source's
order: the `FIXED`+`MNL` validation,
seed parsing, sample-size scale-up, share generation, price and filing-test
generation, filing-test masking (when a test is configured), the second
outside-in validation, diversion ratios, margins, MNL feasibility masking
(when firm-2 margins are MNL-derived), truncation to the originally
requested sample size, and the HHI statistics. -/
def gen_market_sample (spec : MarketSampleSpec) (g : SeedSeq → ℕ → ℚ)
    (seedSeqList : Option (List SeedSeq)) (nthreads : ℕ) :
    Except GenError MarketSample :=
  let distTypeMktshr := spec.share_spec.1
  let recaptureSpec := spec.share_spec.2.1
  let distFirm2Pcm := spec.pcm_spec.2.1
  let hsrType := spec.hsr_filing_test_type
  if recaptureSpec = RECConstants.FIXED ∧ distFirm2Pcm = FM2Constants.MNL then
    Except.error GenError.recaptureMnl
  else
    match (parse_seed_seq_list seedSeqList distTypeMktshr spec.pr_sym_spec).1 with
    | Except.error e => Except.error e
    | Except.ok seeds =>
      let specHere : MarketSampleSpec := { spec with sample_size := inflatedSize spec }
      match _gen_share_data specHere g seeds.fcount seeds.mktshr nthreads with
      | Except.error e => Except.error e
      | Except.ok shareData =>
        let frmshr0 : List (ℚ × ℚ) := shareData.mktshr.map (fun t => (t.1, t.2.1))
        let priceData :=
          _gen_pr_ratio frmshr0 shareData.nth_firm_share specHere g seeds.price
        match hsrMaskStage hsrType shareData priceData with
        | Except.error e => Except.error e
        | Except.ok (mktshrArr, fcounts, cpo, nth, priceArr) =>
          if recaptureSpec = RECConstants.OUTIN ∧ distTypeMktshr.isDir = false then
            Except.error GenError.outinShareDist
          else
            let frmshr1 : List (ℚ × ℚ) := mktshrArr.map (fun t => (t.1, t.2.1))
            match gen_divr_array frmshr1 spec.recapture_rate recaptureSpec cpo with
            | Except.error e => Except.error e
            | Except.ok (divrArr, cpo1) =>
              let pcmDraws := mtFillPair g seeds.pcm frmshr1.length nthreads
              match _gen_pcm_data frmshr1 specHere priceArr cpo1 pcmDraws with
              | Except.error e => Except.error e
              | Except.ok (pcmArr, mnlTestRows) =>
                match finalStage distFirm2Pcm spec.sample_size mktshrArr pcmArr
                    priceArr fcounts cpo1 nth divrArr mnlTestRows with
                | Except.error e => Except.error e
                | Except.ok (mktshrF, pcmF, priceF, fcountsF, cpoF, nthF, divrF) =>
                  Except.ok
                    { frmshr_array := mktshrF.map (fun t => (t.1, t.2.1))
                      pcm_array := pcmF
                      price_array := priceF
                      fcounts := fcountsF
                      choice_prob_outgd := cpoF
                      nth_firm_share := nthF
                      divr_array := divrF
                      hhi_post := mktshrF.map hhiPostRow
                      hhi_delta := mktshrF.map hhiDeltaRow }

/-! ## Concrete inputs used by witnesses and counterexamples -/

/-- Concrete specs for the C5 witness: `FIXED` recapture with MNL-derived
firm-2 margins, and Uniform shares with outside-in recapture. -/
def specMnlFixed : MarketSampleSpec :=
  { share_spec := (SHRConstants.UNI, RECConstants.FIXED, none)
    pcm_spec := (PCMConstants.UNI, FM2Constants.MNL, DIST_PARMS_DEFAULT) }

def specUniOutin : MarketSampleSpec :=
  { share_spec := (SHRConstants.UNI, RECConstants.OUTIN, none) }

/-- Concrete Bounded-Beta margin spec for the C2 witness:
mean 1/2, stddev 29/100, bounds 0 and 1. -/
def specBetaBnd : MarketSampleSpec :=
  { pcm_spec := (PCMConstants.BETA_BND, FM2Constants.IID,
      [1 / 2, 29 / 100, 0, 1]) }

/-- Claim C7, per-row relation: firm 1's margin is the raw draw, and firm
2's margin is the MNL first-order-condition value
`price₁·pcm₁·(1 − purchprob₁) / (price₂·(1 − purchprob₂))` with
`purchprob_i = (1 − choice_prob_outgd)·share_i`, written out as in the
spec. -/
def mnlRowRel (q : (ℚ × ℚ) × (ℚ × ℚ) × FP × (ℚ × ℚ)) (p : FP × FP) : Prop :=
  p.1 = fpv q.2.2.2.1 ∧
  p.2 = FP.div
    (FP.mul (fpv q.2.1.1)
      (FP.mul (fpv q.2.2.2.1)
        (FP.sub (fpv 1) (FP.mul (FP.sub (fpv 1) q.2.2.1) (fpv q.1.1)))))
    (FP.mul (fpv q.2.1.2)
      (FP.sub (fpv 1) (FP.mul (FP.sub (fpv 1) q.2.2.1) (fpv q.1.2))))

/-- Concrete spec for the C7 witness: Uniform margin draws, MNL-derived
firm-2 margins, inside-out recapture. -/
def specMnl : MarketSampleSpec :=
  { share_spec := (SHRConstants.UNI, RECConstants.INOUT, none)
    pcm_spec := (PCMConstants.UNI, FM2Constants.MNL, DIST_PARMS_DEFAULT) }

/-- Draw function whose uniform pairs are all `(1/4, 1/2)`: every simplex
row is the interior point `(1/4, 1/4)`. -/
def gUniW : SeedSeq → ℕ → ℚ := fun _ n => if n % 2 = 0 then 1 / 4 else 1 / 2

/-- Draw function producing one boundary row: the first share chunk draws
the pair `(1/3, 1/3)`, whose simplex image `(1/3, 0)` is discarded; all
other rows are `(1/4, 1/2)`. -/
def gDiscard : SeedSeq → ℕ → ℚ := fun s n =>
  match s with
  | SeedSeq.child (SeedSeq.ext 0) 0 => 1 / 3
  | _ => if n % 2 = 0 then 1 / 4 else 1 / 2

/-- Default (Uniform shares, inside-out recapture, i.i.d. margins, no filing
test) spec with sample size 2. -/
def specTwo : MarketSampleSpec := { sample_size := 2 }

/-- The same default spec with sample size 1. -/
def specOne : MarketSampleSpec := { sample_size := 1 }

/-- The market sample the embedded pipeline returns on `specTwo` and
`gUniW`. -/
def msTwo : MarketSample :=
  { frmshr_array := [(1 / 4, 1 / 4), (1 / 4, 1 / 4)]
    pcm_array := [(some (1 / 4), some (1 / 2)), (some (1 / 4), some (1 / 2))]
    price_array := [(1, 1), (1, 1)]
    fcounts := [none, none]
    choice_prob_outgd := [some (3 / 19), some (3 / 19)]
    nth_firm_share := [none, none]
    divr_array := [(some (4 / 15), some (4 / 15)), (some (4 / 15), some (4 / 15))]
    hhi_post := [none, none]
    hhi_delta := [1 / 8, 1 / 8] }

/-- The market sample the embedded pipeline returns on `specOne` and
`gUniW`. -/
def msOne : MarketSample :=
  { frmshr_array := [(1 / 4, 1 / 4)]
    pcm_array := [(some (1 / 4), some (1 / 2))]
    price_array := [(1, 1)]
    fcounts := [none]
    choice_prob_outgd := [some (3 / 19)]
    nth_firm_share := [none]
    divr_array := [(some (4 / 15), some (4 / 15))]
    hhi_post := [none]
    hhi_delta := [1 / 8] }

/-- A Dirichlet spec at sample size 2: flat Dirichlet shares, one firm-count
weight bucket (so every market draws 2 firms), inside-out recapture. -/
def specDir : MarketSampleSpec :=
  { sample_size := 2
    share_spec := (SHRConstants.DIR_FLAT, RECConstants.INOUT, some [1]) }

/-- Draw function with every variate equal to `1/2`: each flat-Dirichlet
share row is `(1/2, 1/2)`, whose sum passes the consistency check. -/
def gHalf : SeedSeq → ℕ → ℚ := fun _ _ => 1 / 2

/-- The market sample the embedded pipeline returns on `specDir` and
`gHalf`: two 2-firm markets with shares `(1/2, 1/2)` and finite
`hhi_post = 1`. -/
def msDir : MarketSample :=
  { frmshr_array := [(1 / 2, 1 / 2), (1 / 2, 1 / 2)]
    pcm_array := [(some (1 / 2), some (1 / 2)), (some (1 / 2), some (1 / 2))]
    price_array := [(1, 1), (1, 1)]
    fcounts := [some 2, some 2]
    choice_prob_outgd := [some (1 / 9), some (1 / 9)]
    nth_firm_share := [some (1 / 2), some (1 / 2)]
    divr_array := [(some (4 / 5), some (4 / 5)), (some (4 / 5), some (4 / 5))]
    hhi_post := [some 1, some 1]
    hhi_delta := [1 / 2, 1 / 2] }

/-! ## Helper lemmas -/

deriving instance DecidableEq for Except

theorem popLast_concat (xs : List SeedSeq) (x : SeedSeq) :
    popLast (xs ++ [x]) = some (x, xs) := by
  simp [popLast]

theorem length_mtFillPair (g : SeedSeq → ℕ → ℚ) (seed : SeedSeq) (n t : ℕ) :
    (mtFillPair g seed n t).length = n := by
  simp [mtFillPair]


theorem shares_uniform_lengths (draws : List (ℚ × ℚ))
    (hkeep : ∀ p ∈ draws, shareRowKept (uniformSimplexRow p) = true) :
    (gen_market_shares_uniform draws).mktshr.length = draws.length ∧
    (gen_market_shares_uniform draws).fcounts.length = draws.length ∧
    (gen_market_shares_uniform draws).nth_firm_share.length = draws.length ∧
    (gen_market_shares_uniform draws).choice_prob_outgd.length = draws.length := by
  refine ⟨?_, by simp [gen_market_shares_uniform],
    by simp [gen_market_shares_uniform], by simp [gen_market_shares_uniform]⟩
  simp only [gen_market_shares_uniform, List.length_map]
  rw [List.filter_eq_self.2]
  · simp
  · intro r hr
    obtain ⟨p, hp, rfl⟩ := List.mem_map.1 hr
    exact hkeep p hp

theorem pr_ratio_price_length (frmshr : List (ℚ × ℚ)) (nth : List FP)
    (spec : MarketSampleSpec) (g : SeedSeq → ℕ → ℚ) (sd : Option SeedSeq) :
    (_gen_pr_ratio frmshr nth spec g sd).price_array.length = frmshr.length := by
  cases h : spec.pr_sym_spec <;> simp [_gen_pr_ratio, h]

theorem divr_lengths (frmshr : List (ℚ × ℚ)) (rBar : ℚ)
    (rec : RECConstants) (cpo : List FP) (divr : List (FP × FP)) (cpoOut : List FP)
    (hrec : rec ≠ RECConstants.OUTIN)
    (h : gen_divr_array frmshr rBar rec cpo = Except.ok (divr, cpoOut)) :
    divr.length = frmshr.length ∧
    cpoOut.length = (if rec = RECConstants.INOUT then frmshr.length else cpo.length) := by
  cases rec with
  | OUTIN => exact absurd rfl hrec
  | FIXED =>
    simp only [gen_divr_array] at h
    split at h
    · simp only [Except.ok.injEq, Prod.mk.injEq] at h
      rw [← h.1, ← h.2]
      simp
    · cases h
  | INOUT =>
    simp only [gen_divr_array] at h
    split at h
    · simp only [Except.ok.injEq, Prod.mk.injEq] at h
      rw [← h.1, ← h.2]
      simp
    · cases h

theorem pcm_lengths (frmshr : List (ℚ × ℚ)) (spec : MarketSampleSpec)
    (price : List (ℚ × ℚ)) (cpo : List FP) (draws : List (ℚ × ℚ))
    (pcm : List (FP × FP)) (mask : List Bool)
    (hfm2 : spec.pcm_spec.2.1 ≠ FM2Constants.MNL)
    (h : _gen_pcm_data frmshr spec price cpo draws = Except.ok (pcm, mask)) :
    pcm.length = draws.length ∧ mask.length = pcm.length := by
  have hcond : ¬(spec.pcm_spec.2.1 = FM2Constants.MNL ∧
      spec.share_spec.2.1 ≠ RECConstants.FIXED) := fun hc => hfm2 hc.1
  cases hdt : spec.pcm_spec.1 with
  | UNI =>
    simp only [_gen_pcm_data, hdt, if_neg hcond] at h
    split at h <;>
      (simp only [Except.ok.injEq, Prod.mk.injEq] at h
       rw [← h.1, ← h.2]
       simp)
  | EMPR =>
    simp only [_gen_pcm_data, hdt, if_neg hcond] at h
    split at h <;>
      (simp only [Except.ok.injEq, Prod.mk.injEq] at h
       rw [← h.1, ← h.2]
       simp)
  | BETA =>
    by_cases hl : spec.pcm_spec.2.2.length = 2
    · simp only [_gen_pcm_data, hdt, if_neg (not_not_intro hl), if_neg hcond] at h
      split at h <;>
        (simp only [Except.ok.injEq, Prod.mk.injEq] at h
         rw [← h.1, ← h.2]
         simp)
    · simp only [_gen_pcm_data, hdt, if_pos hl] at h
      cases h
  | BETA_BND =>
    simp only [_gen_pcm_data, hdt] at h
    split at h
    · simp at h
    · rename_i heq
      split at heq <;> cases heq


theorem boolMask_mem {α : Type} (mask : List Bool) (l r : List α)
    (h : boolMask mask l = Except.ok r) : ∀ x ∈ r, x ∈ l := by
  simp only [boolMask] at h
  split at h
  · simp only [Except.ok.injEq] at h
    subst h
    intro x hx
    obtain ⟨q, hq, hqe⟩ := List.mem_filterMap.1 hx
    by_cases hb : q.2
    · rw [if_pos hb] at hqe
      cases hqe
      exact (List.of_mem_zip hq).1
    · rw [if_neg hb] at hqe
      cases hqe
  · cases h

theorem share_data_uni_ok (spec : MarketSampleSpec) (g : SeedSeq → ℕ → ℚ)
    (fs : Option SeedSeq) (msq : SeedSeq) (nt : ℕ) (sd : ShareDataSampleG)
    (hdist : spec.share_spec.1 = SHRConstants.UNI)
    (h : _gen_share_data spec g fs msq nt = Except.ok sd) :
    spec.share_spec.2.1 ≠ RECConstants.OUTIN ∧
    sd = (gen_market_shares_uniform (mtFillPair g msq spec.sample_size nt)).toG := by
  simp only [_gen_share_data, hdist] at h
  split at h
  · cases h
  · rename_i hrec
    simp only [Except.ok.injEq] at h
    exact ⟨hrec, h.symm⟩

theorem hsrMaskStage_one (sd : ShareDataSampleG) (pd : PriceDataSample) :
    hsrMaskStage SSZConstants.ONE sd pd =
      Except.ok (sd.mktshr, sd.fcounts, sd.choice_prob_outgd,
        sd.nth_firm_share, pd.price_array) := by
  simp [hsrMaskStage]

theorem hsrMaskStage_mem (t : SSZConstants) (sd : ShareDataSampleG)
    (pd : PriceDataSample) (m : List (ℚ × ℚ × List FP)) (f c n : List FP)
    (p : List (ℚ × ℚ))
    (h : hsrMaskStage t sd pd = Except.ok (m, f, c, n, p)) :
    ∀ x ∈ m, x ∈ sd.mktshr := by
  simp only [hsrMaskStage] at h
  split at h
  · simp only [Except.ok.injEq, Prod.mk.injEq] at h
    rw [← h.1]
    exact fun x hx => hx
  · split at h
    · cases h
    · rename_i mktshrM hmask
      split at h
      · cases h
      · split at h
        · cases h
        · split at h
          · cases h
          · split at h
            · cases h
            · simp only [Except.ok.injEq, Prod.mk.injEq] at h
              rw [← h.1]
              exact boolMask_mem _ _ _ hmask

theorem finalStage_not_mnl (fm2 : FM2Constants) (s : ℕ)
    (m : List (ℚ × ℚ × List FP)) (p : List (FP × FP)) (pr : List (ℚ × ℚ))
    (f c n : List FP) (d : List (FP × FP)) (mnl : List Bool)
    (hfm2 : fm2 ≠ FM2Constants.MNL) :
    finalStage fm2 s m p pr f c n d mnl =
      Except.ok (m.take s, p.take s, pr.take s, f.take s, c.take s,
        n.take s, d.take s) := by
  simp [finalStage, hfm2]

theorem finalStage_mem (fm2 : FM2Constants) (s : ℕ)
    (m : List (ℚ × ℚ × List FP)) (p : List (FP × FP)) (pr : List (ℚ × ℚ))
    (f c n : List FP) (d : List (FP × FP)) (mnl : List Bool)
    (a₁ : List (ℚ × ℚ × List FP)) (a₂ : List (FP × FP)) (a₃ : List (ℚ × ℚ))
    (a₄ a₅ a₆ : List FP) (a₇ : List (FP × FP))
    (h : finalStage fm2 s m p pr f c n d mnl =
      Except.ok (a₁, a₂, a₃, a₄, a₅, a₆, a₇)) :
    ∀ x ∈ a₁, x ∈ m := by
  simp only [finalStage] at h
  split at h
  · split at h
    · cases h
    · rename_i m' hmask
      split at h
      · cases h
      · split at h
        · cases h
        · split at h
          · cases h
          · split at h
            · cases h
            · split at h
              · cases h
              · split at h
                · cases h
                · simp only [Except.ok.injEq, Prod.mk.injEq] at h
                  rw [← h.1]
                  intro x hx
                  exact boolMask_mem _ _ _ hmask x (List.take_subset _ _ hx)
  · simp only [Except.ok.injEq, Prod.mk.injEq] at h
    rw [← h.1]
    intro x hx
    exact List.take_subset _ _ hx

theorem uniform_mktshr_third (draws : List (ℚ × ℚ)) :
    ∀ t ∈ (gen_market_shares_uniform draws).toG.mktshr, t.2.2 = [FP.nan] := by
  intro t ht
  simp only [ShareDataSample.toG, gen_market_shares_uniform, List.map_map,
    List.mem_map] at ht
  obtain ⟨r, -, rfl⟩ := ht
  rfl

theorem restSumSq_nan (cells : List FP) (h : FP.nan ∈ cells) :
    restSumSq cells = FP.nan := by
  induction cells with
  | nil => cases h
  | cons c cs ih =>
    rcases List.mem_cons.1 h with h1 | h2
    · subst h1
      rfl
    · show FP.add (FP.mul c c) (restSumSq cs) = FP.nan
      rw [ih h2]
      cases FP.mul c c <;> rfl

theorem hhiPostRow_nan (t : ℚ × ℚ × List FP) (h : FP.nan ∈ t.2.2) :
    hhiPostRow t = FP.nan := by
  simp [hhiPostRow, restSumSq_nan t.2.2 h, FP.nan, FP.add]

theorem restSumSq_fpv (cells : List ℚ) :
    restSumSq (cells.map fpv) = fpv ((cells.map (fun c => c * c)).sum) := by
  induction cells with
  | nil => rfl
  | cons c cs ih =>
    show FP.add (FP.mul (fpv c) (fpv c)) (restSumSq (cs.map fpv)) = _
    rw [ih]
    simp [FP.mul, FP.add, fpv]

theorem hhiPostRow_fpv (s1 s2 : ℚ) (cells : List ℚ) :
    hhiPostRow (s1, s2, cells.map fpv) =
      fpv (2 * s1 * s2 +
        (s1 * s1 + (s2 * s2 + (cells.map (fun c => c * c)).sum))) := by
  simp only [hhiPostRow, hhiDeltaRow, restSumSq_fpv, fpv, FP.add]
  exact congrArg some (by ring)

theorem restSumSq_append (l1 l2 : List FP) :
    restSumSq (l1 ++ l2) =
      l1.foldr (fun c acc => FP.add (FP.mul c c) acc) (restSumSq l2) := by
  simp only [restSumSq, List.foldr_append]

theorem restSumSq_pad (rest : List FP) (k : ℕ) :
    restSumSq (rest ++ List.replicate k (fpv 0)) = restSumSq rest := by
  have hz : restSumSq (List.replicate k (fpv 0)) = fpv 0 := by
    induction k with
    | zero => rfl
    | succ n ih =>
      show FP.add (FP.mul (fpv 0) (fpv 0)) (restSumSq (List.replicate n (fpv 0))) = fpv 0
      rw [ih]
      simp [FP.mul, FP.add, fpv]
  rw [restSumSq_append, hz]
  rfl

theorem hhiPostRow_pad (s1 s2 : ℚ) (rest : List FP) (k : ℕ) :
    hhiPostRow (s1, s2, rest ++ List.replicate k (fpv 0)) =
      hhiPostRow (s1, s2, rest) := by
  simp only [hhiPostRow, hhiDeltaRow, restSumSq_pad]

theorem dirMultisampleAssemble_cells (sSize fcMax : ℕ) (fcounts : List ℕ)
    (strata : List (ℕ × DirShareSample)) (sd : ShareDataSampleG)
    (h : dirMultisampleAssemble sSize fcMax fcounts strata = Except.ok sd) :
    ∀ t ∈ sd.mktshr, ∃ cells : List ℚ, t.2.2 = cells.map fpv := by
  simp only [dirMultisampleAssemble] at h
  split at h
  · cases h
  · simp only [Except.ok.injEq] at h
    subst h
    intro t ht
    simp only [List.mem_map] at ht
    obtain ⟨row, -, rfl⟩ := ht
    exact ⟨row.drop 2, rfl⟩

theorem multisample_mktshr_cells (sSize : ℕ) (dt : SHRConstants)
    (rs : RECConstants) (fw : Option (List ℚ)) (fs : Option SeedSeq)
    (msq : SeedSeq) (nt : ℕ) (g : SeedSeq → ℕ → ℚ) (sd : ShareDataSampleG)
    (h : gen_market_shares_dirichlet_multisample sSize dt rs fw fs msq nt g =
      Except.ok sd) :
    ∀ t ∈ sd.mktshr, ∃ cells : List ℚ, t.2.2 = cells.map fpv := by
  cases fw with
  | none => simp [gen_market_shares_dirichlet_multisample] at h
  | some wts =>
    simp only [gen_market_shares_dirichlet_multisample] at h
    split at h
    · cases h
    · split at h
      · cases h
      · exact dirMultisampleAssemble_cells _ _ _ _ _ h

theorem share_data_dir_cells (spec : MarketSampleSpec) (g : SeedSeq → ℕ → ℚ)
    (fs : Option SeedSeq) (msq : SeedSeq) (nt : ℕ) (sd : ShareDataSampleG)
    (hdist : spec.share_spec.1 ≠ SHRConstants.UNI)
    (h : _gen_share_data spec g fs msq nt = Except.ok sd) :
    ∀ t ∈ sd.mktshr, ∃ cells : List ℚ, t.2.2 = cells.map fpv := by
  rw [_gen_share_data.eq_def] at h
  split at h
  · rename_i heq
    exact absurd heq hdist
  all_goals exact multisample_mktshr_cells _ _ _ _ _ _ _ _ _ h

unseal Rat.mul Rat.add Rat.sub Rat.inv in
/-- The Dirichlet share path is live end to end: the concrete flat-Dirichlet
run on `specDir` succeeds and returns `msDir`, whose `hhi_post` entries are
the finite value 1. -/
theorem dirichlet_path_live :
    gen_market_sample specDir gHalf none 16 = Except.ok msDir ∧
    msDir.hhi_post = [fpv 1, fpv 1] := by
  decide

theorem forall₂_map_map {α β γ : Type} (l : List α) (f : α → β) (h : α → γ)
    (R : β → γ → Prop) (hx : ∀ x ∈ l, R (f x) (h x)) :
    List.Forall₂ R (l.map f) (l.map h) := by
  induction l with
  | nil => simp
  | cons a l ih =>
    exact List.Forall₂.cons (hx a (by simp))
      (ih (fun x hm => hx x (by simp [hm])))


theorem hhiDeltaRow_eq (t : ℚ × ℚ × List FP) : hhiDeltaRow t = 2 * t.1 * t.2.1 := by
  simp only [hhiDeltaRow]
  ring

/-! ## Claims about the Seed Manager -/

/-- Claim C3, counterexample: with a Uniform share distribution and the
independent-price mode, three pools are required (share, margin, price); a
supplied list holding a single pool does not produce a configuration error —
the single pool is consumed for prices and fresh pools are silently created
for the share and margin streams. -/
theorem claim_C3_counterexample :
    parse_seed_seq_list (some [SeedSeq.ext 0]) SHRConstants.UNI PRIConstants.ZERO =
      (Except.ok ⟨SeedSeq.fresh 1, SeedSeq.fresh 2, none, some (SeedSeq.ext 0)⟩,
       some []) := by
  decide

/-- Claim C3, amended: when the supplied pool list, after the price pool is
popped from its end (in the non-symmetric price modes), is still non-empty
but shorter than the share-distribution requirement (2 pools for Uniform,
3 for Dirichlet), `parse_seed_seq_list` fails with an unpacking `ValueError`
naming the expected and received counts; when the price pop exhausts the
list, fresh pools are created instead of failing. -/
theorem claim_C3_amended (l : List SeedSeq) (dist : SHRConstants)
    (pr : PRIConstants) (hl : l ≠ []) :
    (∀ rest need, rest = (if pr = PRIConstants.SYM then l else l.dropLast) →
      need = (if dist = SHRConstants.UNI then 2 else 3) →
      rest ≠ [] → rest.length < need →
      (parse_seed_seq_list (some l) dist pr).1 =
        Except.error (GenError.unpack need rest.length)) ∧
    (pr ≠ PRIConstants.SYM → l.dropLast = [] →
      (parse_seed_seq_list (some l) dist pr).1 =
        Except.ok ⟨SeedSeq.fresh 1, SeedSeq.fresh 2,
          (if dist = SHRConstants.UNI then none else some (SeedSeq.fresh 3)),
          some (l.getLast hl)⟩) := by
  obtain ⟨xs, x, rfl⟩ : ∃ xs x, l = xs ++ [x] := by
    rcases l.eq_nil_or_concat with rfl | ⟨L, b, h⟩
    · exact absurd rfl hl
    · exact ⟨L, b, by simpa using h⟩
  have hdrop : (xs ++ [x]).dropLast = xs := by simp
  constructor
  · rintro rest need rfl rfl hne hlt
    by_cases hpr : pr = PRIConstants.SYM
    · rw [if_pos hpr] at hne hlt
      simp only [parse_seed_seq_list, if_pos hpr]
      rcases xs with _ | ⟨a, xs'⟩
      · by_cases hd : dist = SHRConstants.UNI
        · simp [hd]
        · simp [hd]
      · by_cases hd : dist = SHRConstants.UNI
        · rw [if_pos hd] at hlt
          exfalso
          simp at hlt
          omega
        · rw [if_neg hd] at hlt
          rcases xs' with _ | ⟨b, xs''⟩
          · simp [hd]
          · exfalso
            simp at hlt
            omega
    · rw [if_neg hpr] at hne hlt
      rw [hdrop] at hne hlt
      simp only [parse_seed_seq_list, if_neg hpr, popLast_concat]
      rcases xs with _ | ⟨a, xs'⟩
      · exact absurd rfl hne
      · by_cases hd : dist = SHRConstants.UNI
        · rw [if_pos hd] at hlt
          rcases xs' with _ | ⟨b, xs''⟩
          · simp [hd]
          · exfalso
            simp at hlt
            omega
        · rw [if_neg hd] at hlt
          rcases xs' with _ | ⟨b, xs''⟩
          · simp [hd]
          · rcases xs'' with _ | ⟨c, xs'''⟩
            · simp [hd]
            · exfalso
              simp at hlt
              omega
  · intro hpr hdrop'
    have hxs : xs = [] := by
      rw [hdrop] at hdrop'
      exact hdrop'
    subst hxs
    have hlast : (([] : List SeedSeq) ++ [x]).getLast hl = x := by simp
    rw [hlast]
    by_cases hd : dist = SHRConstants.UNI
    · simp [parse_seed_seq_list, if_neg hpr, popLast, hd]
    · simp [parse_seed_seq_list, if_neg hpr, popLast, hd]

/-- Claim C3, witness for the amended claim: a two-pool list with a
Dirichlet share distribution (3 pools required) and symmetric prices fails
with the unpack error naming expected count 3 and received count 2. -/
theorem claim_C3_witness :
    (parse_seed_seq_list (some [SeedSeq.ext 0, SeedSeq.ext 1])
        SHRConstants.DIR_FLAT PRIConstants.SYM).1 =
      Except.error (GenError.unpack 3 2) :=
  (claim_C3_amended [SeedSeq.ext 0, SeedSeq.ext 1] SHRConstants.DIR_FLAT
      PRIConstants.SYM (by decide)).1
    [SeedSeq.ext 0, SeedSeq.ext 1] 3 (by decide) (by decide) (by decide) (by decide)

/-- Claim C10: with a non-symmetric price mode and a caller-supplied seed
list, `parse_seed_seq_list` removes the list's last element (the caller's
list object is left without it after the call) and uses it as the price
pool; when the supplied list holds exactly one pool, the list is left empty
and fresh pools serve the share and margin streams. -/
theorem claim_C10 (dist : SHRConstants) (pr : PRIConstants)
    (hpr : pr ≠ PRIConstants.SYM) (xs : List SeedSeq) (x : SeedSeq) :
    (parse_seed_seq_list (some (xs ++ [x])) dist pr).2 = some xs ∧
    (∀ q, (parse_seed_seq_list (some (xs ++ [x])) dist pr).1 = Except.ok q →
      q.price = some x) ∧
    (parse_seed_seq_list (some [x]) dist pr).1 =
      Except.ok ⟨SeedSeq.fresh 1, SeedSeq.fresh 2,
        (if dist = SHRConstants.UNI then none else some (SeedSeq.fresh 3)),
        some x⟩ ∧
    (parse_seed_seq_list (some [x]) dist pr).2 = some [] := by
  refine ⟨?_, ?_, ?_, ?_⟩
  · simp [parse_seed_seq_list, if_neg hpr, popLast_concat]
  · intro q hq
    simp only [parse_seed_seq_list, if_neg hpr, popLast_concat] at hq
    rcases xs with _ | ⟨a, xs'⟩ <;> repeat' split at hq
    all_goals first
      | (injection hq with h; subst h; rfl)
      | simp at hq
  · by_cases hd : dist = SHRConstants.UNI <;>
      simp [parse_seed_seq_list, if_neg hpr, popLast, hd]
  · simp [parse_seed_seq_list, if_neg hpr, popLast]

/-- Claim C10, witness: a concrete two-pool list loses its last pool to the
price stream, and a concrete one-pool list is left empty with fresh pools
created for shares and margins. -/
theorem claim_C10_witness :
    (parse_seed_seq_list (some [SeedSeq.ext 5, SeedSeq.ext 7])
        SHRConstants.UNI PRIConstants.ZERO).2 = some [SeedSeq.ext 5] ∧
    (parse_seed_seq_list (some [SeedSeq.ext 7])
        SHRConstants.UNI PRIConstants.ZERO).1 =
      Except.ok ⟨SeedSeq.fresh 1, SeedSeq.fresh 2,
        (if SHRConstants.UNI = SHRConstants.UNI then none
         else some (SeedSeq.fresh 3)), some (SeedSeq.ext 7)⟩ :=
  ⟨(claim_C10 SHRConstants.UNI PRIConstants.ZERO (by decide)
      [SeedSeq.ext 5] (SeedSeq.ext 7)).1,
   (claim_C10 SHRConstants.UNI PRIConstants.ZERO (by decide)
      [SeedSeq.ext 5] (SeedSeq.ext 7)).2.2.1⟩

/-! ## Claims about reproducibility and eager validation -/

/-- Claim C4: the generated sample is a pure function of the specification,
the seed pools and the draw function; the requested thread count influences
neither the filler's output (two-column Uniform buffers and Dirichlet
multi-column buffers alike) nor the assembled market sample, on the Uniform
and the Dirichlet share paths alike.  (The filler is modelled from the
spec, which fixes a thread-count-invariant partition; the pipeline theorem
shows the invariance is preserved end to end.) -/
theorem claim_C4 (spec : MarketSampleSpec) (g : SeedSeq → ℕ → ℚ)
    (sl : Option (List SeedSeq)) (t₁ t₂ : ℕ) :
    gen_market_sample spec g sl t₁ = gen_market_sample spec g sl t₂ ∧
    (∀ seed n, mtFillPair g seed n t₁ = mtFillPair g seed n t₂) ∧
    ∀ seed nrows ncols,
      mtFillMulti g seed nrows ncols t₁ = mtFillMulti g seed nrows ncols t₂ :=
  ⟨rfl, fun _ _ => rfl, fun _ _ _ => rfl⟩

/-- Claim C5: a spec combining firm-2 margin mode `MNL` with recapture mode
`FIXED` is rejected with the dedicated configuration error for every draw
function (so before any variate can matter), and a Uniform share distribution
with outside-in recapture fails in share-data validation, before the filler
is consulted, whenever seed parsing itself succeeds. -/
theorem claim_C5 (spec : MarketSampleSpec) (g : SeedSeq → ℕ → ℚ)
    (sl : Option (List SeedSeq)) (nt : ℕ) :
    (spec.share_spec.2.1 = RECConstants.FIXED →
      spec.pcm_spec.2.1 = FM2Constants.MNL →
      gen_market_sample spec g sl nt = Except.error GenError.recaptureMnl) ∧
    (spec.share_spec.1 = SHRConstants.UNI →
      spec.share_spec.2.1 = RECConstants.OUTIN →
      ∀ q, (parse_seed_seq_list sl SHRConstants.UNI spec.pr_sym_spec).1 =
        Except.ok q →
      gen_market_sample spec g sl nt = Except.error GenError.uniOutsideIn) := by
  constructor
  · intro h1 h2
    simp [gen_market_sample, h1, h2]
  · intro hdist hrec q hq
    have hne : ¬(spec.share_spec.2.1 = RECConstants.FIXED ∧
        spec.pcm_spec.2.1 = FM2Constants.MNL) := by
      rw [hrec]
      rintro ⟨h, -⟩
      cases h
    simp only [gen_market_sample, if_neg hne, hdist, hq]
    simp [_gen_share_data, hdist, hrec]

/-- Claim C5, witness: both incompatible concrete specs are rejected with
their dedicated configuration errors (under a draw function chosen
arbitrarily, since the rejection precedes any draw). -/
theorem claim_C5_witness :
    gen_market_sample specMnlFixed (fun _ _ => 1 / 2) none 16 =
      Except.error GenError.recaptureMnl ∧
    gen_market_sample specUniOutin (fun _ _ => 1 / 2) none 16 =
      Except.error GenError.uniOutsideIn :=
  ⟨(claim_C5 specMnlFixed (fun _ _ => 1 / 2) none 16).1 rfl rfl,
   (claim_C5 specUniOutin (fun _ _ => 1 / 2) none 16).2 rfl rfl
     ⟨SeedSeq.fresh 1, SeedSeq.fresh 2, none, none⟩ (by decide)⟩

/-! ## Claims about the Margin (PCM) Generator -/

/-- Claim C2: the Bounded-Beta margin path cannot run at all.  After the
parameter-count validation passes (4 parameters), `_gen_pcm_data` evaluates
`_beta_located_bound(_dist_parms_pcm)`, a name the module never defines (the
defined function is `beta_located_bound`), so every Bounded-Beta margin spec
raises `NameError` before any margin is drawn or rescaled. -/
theorem claim_C2_bug (frmshr : List (ℚ × ℚ)) (spec : MarketSampleSpec)
    (price : List (ℚ × ℚ)) (cpo : List FP) (draws : List (ℚ × ℚ))
    (hbnd : spec.pcm_spec.1 = PCMConstants.BETA_BND)
    (hlen : spec.pcm_spec.2.2.length = 4) :
    _gen_pcm_data frmshr spec price cpo draws =
      Except.error GenError.nameErrorBetaLocatedBound := by
  simp [_gen_pcm_data, hbnd, hlen]

/-- Claim C2, witness: the concrete Bounded-Beta spec hits the `NameError`. -/
theorem claim_C2_witness :
    _gen_pcm_data [] specBetaBnd [] [] [] =
      Except.error GenError.nameErrorBetaLocatedBound :=
  claim_C2_bug [] specBetaBnd [] [] [] rfl rfl

theorem mnl_rows_forall (as bs : List (ℚ × ℚ)) (cs : List FP)
    (ds : List (ℚ × ℚ)) (hb : bs.length = as.length)
    (hc : cs.length = as.length) (hd : ds.length = as.length) :
    List.Forall₂ mnlRowRel (as.zip (bs.zip (cs.zip ds)))
      (((as.zip bs).zip (cs.zip (ds.map (fun p => (fpv p.1, fpv p.2))))).map
        (fun q => (q.2.2.1, pcmMnlRow q.2.1 q.1.1 q.1.2 q.2.2.1))) := by
  induction as generalizing bs cs ds with
  | nil =>
    rcases bs with _ | _ <;> simp_all
  | cons a as ih =>
    rcases bs with _ | ⟨b, bs⟩
    · simp at hb
    rcases cs with _ | ⟨c, cs⟩
    · simp at hc
    rcases ds with _ | ⟨d, ds⟩
    · simp at hd
    simp only [List.zip_cons_cons, List.map_cons]
    exact List.Forall₂.cons ⟨rfl, rfl⟩
      (ih bs cs ds (by simpa using hb) (by simpa using hc) (by simpa using hd))

/-- Claim C7: with MNL-derived firm-2 margins and recapture not `FIXED`,
`_gen_pcm_data` succeeds, returns one margin row and one feasibility flag
per input row (infeasible rows are kept, not discarded), firm 2's margin is
overridden by the MNL first-order-condition formula, and the flag is exactly
the test `0 ≤ pcm₂ ≤ 1` on the derived value (false on a non-finite
value). -/
theorem claim_C7 (frmshr price : List (ℚ × ℚ)) (cpo : List FP)
    (draws : List (ℚ × ℚ)) (spec : MarketSampleSpec)
    (hmnl : spec.pcm_spec.2.1 = FM2Constants.MNL)
    (hrec : spec.share_spec.2.1 ≠ RECConstants.FIXED)
    (hdist : spec.pcm_spec.1 = PCMConstants.UNI ∨
      spec.pcm_spec.1 = PCMConstants.EMPR ∨
      (spec.pcm_spec.1 = PCMConstants.BETA ∧ spec.pcm_spec.2.2.length = 2))
    (hb : price.length = frmshr.length) (hc : cpo.length = frmshr.length)
    (hd : draws.length = frmshr.length) :
    ∃ pcm mask, _gen_pcm_data frmshr spec price cpo draws = Except.ok (pcm, mask) ∧
      pcm.length = frmshr.length ∧
      mask.length = frmshr.length ∧
      List.Forall₂ mnlRowRel (frmshr.zip (price.zip (cpo.zip draws))) pcm ∧
      List.Forall₂ (fun (p : FP × FP) (b : Bool) =>
        b = (FP.le (fpv 0) p.2 && FP.le p.2 (fpv 1))) pcm mask := by
  have hcond : spec.pcm_spec.2.1 = FM2Constants.MNL ∧
      spec.share_spec.2.1 ≠ RECConstants.FIXED := ⟨hmnl, hrec⟩
  have hmain : _gen_pcm_data frmshr spec price cpo draws =
      Except.ok
        ((((frmshr.zip price).zip
            (cpo.zip (draws.map (fun p => (fpv p.1, fpv p.2))))).map
          (fun q => (q.2.2.1, pcmMnlRow q.2.1 q.1.1 q.1.2 q.2.2.1))),
         ((((frmshr.zip price).zip
            (cpo.zip (draws.map (fun p => (fpv p.1, fpv p.2))))).map
          (fun q => (q.2.2.1, pcmMnlRow q.2.1 q.1.1 q.1.2 q.2.2.1))).map
          (fun p => FP.le (fpv 0) p.2 && FP.le p.2 (fpv 1)))) := by
    rcases hdist with h | h | ⟨h, h2⟩
    · simp [_gen_pcm_data, h, hcond]
    · simp [_gen_pcm_data, h, hcond]
    · simp [_gen_pcm_data, h, hcond, h2]
  refine ⟨_, _, hmain, ?_, ?_, ?_, ?_⟩
  · simp [List.length_zip, hb, hc, hd]
  · simp [List.length_zip, hb, hc, hd]
  · exact mnl_rows_forall frmshr price cpo draws hb hc hd
  · rw [List.forall₂_map_right_iff]
    exact List.forall₂_same.2 (fun p _ => rfl)

/-- Claim C7, witness: the MNL margin generator succeeds on one concrete
row. -/
theorem claim_C7_witness :
    (_gen_pcm_data [(1 / 4, 1 / 2)] specMnl [(1, 1)] [some (1 / 5)]
        [(3 / 10, 9 / 10)]).isOk = true := by
  obtain ⟨pcm, mask, heq, -, -, -, -⟩ :=
    claim_C7 [(1 / 4, 1 / 2)] [(1, 1)] [some (1 / 5)] [(3 / 10, 9 / 10)]
      specMnl rfl (by decide) (Or.inl rfl) rfl rfl rfl
  rw [heq]
  rfl

/-! ## Claims about the Share Generator (Uniform branch) -/

/-- Claim C9: under the Uniform-simplex model, every returned share row is
`(min, max − min)` of one pair of draws, carries the `np.nan` marker in the
synthetic third column, and has both firm shares strictly positive with sum
strictly below 1; conversely no interior row is discarded — exactly the rows
with a non-positive coordinate are dropped. -/
theorem claim_C9 (draws : List (ℚ × ℚ))
    (hdraws : ∀ p ∈ draws, 0 ≤ p.1 ∧ p.1 < 1 ∧ 0 ≤ p.2 ∧ p.2 < 1) :
    (∀ t ∈ (gen_market_shares_uniform draws).mktshr,
      (∃ p ∈ draws, t.1 = min p.1 p.2 ∧ t.2.1 = max p.1 p.2 - min p.1 p.2) ∧
      t.2.2 = FP.nan ∧ 0 < t.1 ∧ 0 < t.2.1 ∧ t.1 + t.2.1 < 1) ∧
    (∀ p ∈ draws, 0 < min p.1 p.2 → p.1 ≠ p.2 →
      ((uniformSimplexRow p).1, (uniformSimplexRow p).2, FP.nan) ∈
        (gen_market_shares_uniform draws).mktshr) := by
  constructor
  · intro t ht
    simp only [gen_market_shares_uniform, List.mem_map] at ht
    obtain ⟨r, hr, rfl⟩ := ht
    rw [List.mem_filter] at hr
    obtain ⟨hrm, hkept⟩ := hr
    rw [List.mem_map] at hrm
    obtain ⟨p, hp, rfl⟩ := hrm
    have hklt : 0 < min (uniformSimplexRow p).1 (uniformSimplexRow p).2 := by
      simpa [shareRowKept] using hkept
    obtain ⟨h1, h1b, h2, h2b⟩ := hdraws p hp
    refine ⟨⟨p, hp, rfl, rfl⟩, rfl, ?_, ?_, ?_⟩
    · exact lt_of_lt_of_le hklt (min_le_left _ _)
    · exact lt_of_lt_of_le hklt (min_le_right _ _)
    · show (uniformSimplexRow p).1 + (uniformSimplexRow p).2 < 1
      simp only [uniformSimplexRow]
      have : min p.1 p.2 + (max p.1 p.2 - min p.1 p.2) = max p.1 p.2 := by ring
      rw [this]
      exact max_lt h1b h2b
  · intro p hp hpos hne
    simp only [gen_market_shares_uniform, List.mem_map]
    refine ⟨uniformSimplexRow p, ?_, rfl⟩
    rw [List.mem_filter]
    refine ⟨List.mem_map_of_mem _ hp, ?_⟩
    simp only [shareRowKept, uniformSimplexRow, decide_eq_true_eq]
    refine lt_min hpos ?_
    rw [sub_pos]
    exact min_lt_max.2 hne

/-- Claim C9, witness: the concrete draw pair `(1/2, 1/4)` is interior, and
its simplex image `(1/4, 1/4)` (with the NaN third column) is among the
returned rows. -/
theorem claim_C9_witness :
    ((1 / 4 : ℚ), ((1 / 4 : ℚ), FP.nan)) ∈
      (gen_market_shares_uniform [(1 / 2, 1 / 4)]).mktshr := by
  have h := (claim_C9 [(1 / 2, 1 / 4)] (by norm_num)).2 (1 / 2, 1 / 4)
    (by simp) (by norm_num) (by norm_num)
  have hrow : uniformSimplexRow ((1 : ℚ) / 2, (1 : ℚ) / 4) = (1 / 4, 1 / 4) := by
    norm_num [uniformSimplexRow]
  rw [hrow] at h
  exact h

/-! ## Claims about the Diversion-Ratio Calculator -/

/-- Sign relation behind the diversion-ratio consistency test: with positive
shares summing below one, the diversion ratio toward the weakly larger firm
is weakly larger, strictly so when the shares differ. -/
theorem divr_sign (r s1 s2 : ℚ) (hr : 0 < r) (h1 : 0 < s1) (h2 : 0 < s2)
    (hs : s1 + s2 < 1) :
    (s1 ≤ s2 → r * s1 / (1 - s2) ≤ r * s2 / (1 - s1)) ∧
    (s2 < s1 → r * s2 / (1 - s1) < r * s1 / (1 - s2)) := by
  have hd1 : 0 < 1 - s1 := by linarith
  have hd2 : 0 < 1 - s2 := by linarith
  constructor
  · intro h
    rw [div_le_div_iff hd2 hd1]
    nlinarith [mul_nonneg (mul_nonneg hr.le (sub_nonneg.2 h))
      (show (0 : ℚ) ≤ 1 - s1 - s2 by linarith)]
  · intro h
    rw [div_lt_div_iff hd1 hd2]
    nlinarith [mul_pos (mul_pos hr (sub_pos.2 h))
      (show (0 : ℚ) < 1 - s1 - s2 by linarith)]

/-- The index of the smaller share equals the index of the larger diversion
ratio, for the fixed (proportional) recapture formula. -/
theorem argmax_fixed (r : ℚ) (p : ℚ × ℚ) (hr : 0 < r) (h1 : 0 < p.1)
    (h2 : 0 < p.2) (hs : p.1 + p.2 < 1) :
    argminQ p = argmaxFP
      (FP.div (fpv (r * p.2)) (fpv (1 - p.1)),
       FP.div (fpv (r * p.1)) (fpv (1 - p.2))) := by
  have hne1 : (1 - p.1) ≠ 0 := by
    have : 0 < 1 - p.1 := by linarith
    exact ne_of_gt this
  have hne2 : (1 - p.2) ≠ 0 := by
    have : 0 < 1 - p.2 := by linarith
    exact ne_of_gt this
  simp only [FP.div, fpv, if_neg hne1, if_neg hne2, argmaxFP, argminQ]
  by_cases hle : p.1 ≤ p.2
  · have hge := (divr_sign r p.1 p.2 hr h1 h2 hs).1 hle
    rw [if_pos hle, if_neg (not_lt.2 hge)]
  · have hlt := (divr_sign r p.1 p.2 hr h1 h2 hs).2 (lt_of_not_le hle)
    rw [if_neg hle, if_pos hlt]

/-- The index of the smaller share equals the index of the larger diversion
ratio, for the purchase-probability form with any per-row
one-minus-outside-good probability in `(0, 1]`. -/
theorem argmax_om (c : ℚ) (p : ℚ × ℚ) (hc0 : 0 < c) (hc1 : c ≤ 1)
    (h1 : 0 < p.1) (h2 : 0 < p.2) (hs : p.1 + p.2 < 1) :
    argminQ p = argmaxFP (divrFromOneMinus (fpv c) p) := by
  have hp1 : 0 < c * p.1 := mul_pos hc0 h1
  have hp2 : 0 < c * p.2 := mul_pos hc0 h2
  have hsum : c * p.1 + c * p.2 < 1 := by
    have hco : c * (p.1 + p.2) ≤ p.1 + p.2 :=
      mul_le_of_le_one_left (by linarith) hc1
    nlinarith
  have hne1 : (1 - c * p.1) ≠ 0 := by
    have : c * p.1 < 1 := by linarith
    have : 0 < 1 - c * p.1 := by linarith
    exact ne_of_gt this
  have hne2 : (1 - c * p.2) ≠ 0 := by
    have : c * p.2 < 1 := by linarith
    have : 0 < 1 - c * p.2 := by linarith
    exact ne_of_gt this
  simp only [divrFromOneMinus, FP.mul, FP.sub, FP.div, fpv, if_neg hne1,
    if_neg hne2, argmaxFP, argminQ]
  by_cases hle : p.1 ≤ p.2
  · have hle' : c * p.1 ≤ c * p.2 := by nlinarith
    have hge := (divr_sign 1 (c * p.1) (c * p.2) one_pos hp1 hp2 hsum).1 hle'
    rw [one_mul, one_mul] at hge
    rw [if_pos hle, if_neg (not_lt.2 hge)]
  · have hlt' : c * p.2 < c * p.1 := by
      have := lt_of_not_le hle
      nlinarith
    have hlt := (divr_sign 1 (c * p.1) (c * p.2) one_pos hp1 hp2 hsum).2 hlt'
    rw [one_mul, one_mul] at hlt
    rw [if_neg hle, if_pos hlt]

/-- The inside-out one-minus-outside-good probability is a finite value in
`(0, 1]`. -/
theorem inout_om_bounds (rBar : ℚ) (p : ℚ × ℚ) (hr0 : 0 < rBar)
    (hr1 : rBar ≤ 1) (h1 : 0 < p.1) (h2 : 0 < p.2) (h1b : p.1 < 1)
    (h2b : p.2 < 1) :
    ∃ c, inoutOneMinus rBar p = fpv c ∧ 0 < c ∧ c ≤ 1 := by
  have hmin0 : 0 < min p.1 p.2 := lt_min h1 h2
  have hmin1 : min p.1 p.2 < 1 := lt_of_le_of_lt (min_le_left _ _) h1b
  have hrr : 0 ≤ 1 - rBar := by linarith
  have hle : (1 - rBar) * min p.1 p.2 ≤ min p.1 p.2 :=
    mul_le_of_le_one_left hmin0.le (by linarith)
  have hD : 0 < 1 - (1 - rBar) * min p.1 p.2 := by linarith
  refine ⟨rBar / (1 - (1 - rBar) * min p.1 p.2), ?_, ?_, ?_⟩
  · simp only [inoutOneMinus, FP.div, fpv, if_neg (ne_of_gt hD)]
  · exact div_pos hr0 hD
  · rw [div_le_one hD]
    have : (1 - rBar) * min p.1 p.2 ≤ (1 - rBar) * 1 :=
      mul_le_mul_of_nonneg_left hmin1.le hrr
    linarith

/-- A per-row consistency check passes whenever the share-index /
ratio-index agreement holds. -/
theorem divrTestRow_of_argmax (p : ℚ × ℚ) (d : FP × FP)
    (h : argminQ p = argmaxFP d) : divrTestRow p d = true := by
  simp [divrTestRow, h]

theorem all_zip_map {α β : Type} (l : List α) (f : α → β)
    (test : α → β → Bool) (h : ∀ p ∈ l, test p (f p) = true) :
    (l.zip (l.map f)).all (fun q => test q.1 q.2) = true := by
  induction l with
  | nil => rfl
  | cons a l ih => simp_all

theorem all_zip_map2 {α β γ : Type} (l : List α) (c : List β)
    (g : α × β → γ) (test : α → γ → Bool)
    (h : ∀ p cp, (p, cp) ∈ l.zip c → test p (g (p, cp)) = true) :
    (l.zip ((l.zip c).map g)).all (fun q => test q.1 q.2) = true := by
  induction l generalizing c with
  | nil => rfl
  | cons a l ih =>
    rcases c with _ | ⟨b, c⟩
    · rfl
    · simp only [List.zip_cons_cons, List.map_cons, List.all_cons,
        Bool.and_eq_true]
      exact ⟨h a b (by simp), ih c (fun p cp hm => h p cp (by simp [hm]))⟩

theorem forall₂_zip_map2 {α β γ : Type} (l : List α) (c : List β)
    (g : α × β → γ) (R : α → γ → Prop)
    (hlen : c.length = l.length)
    (h : ∀ p cp, (p, cp) ∈ l.zip c → R p (g (p, cp))) :
    List.Forall₂ R l ((l.zip c).map g) := by
  induction l generalizing c with
  | nil => simp
  | cons a l ih =>
    rcases c with _ | ⟨b, c⟩
    · simp at hlen
    · simp only [List.zip_cons_cons, List.map_cons]
      exact List.Forall₂.cons (h a b (by simp))
        (ih c (by simpa using hlen) (fun p cp hm => h p cp (by simp [hm])))

/-- Claim C8: on interior share rows (both shares strictly in `(0,1)` with
row sums strictly below 1) and recapture rate in `(0,1]` — for outside-in
recapture additionally a supplied outside-good choice probability in
`[0,1)` per row — `gen_divr_array` does not raise: the fatal
data-consistency branch is unreachable, since for every row the index of the
smaller share equals the index of the larger diversion ratio (row sums equal
to 1 being excluded by hypothesis); for `FIXED` recapture every diversion
ratio is `recapture-rate × opposite-firm-share / (1 − own-share)`. -/
theorem claim_C8 (frmshr : List (ℚ × ℚ)) (rBar : ℚ) (rec : RECConstants)
    (cpo : List FP) (hr0 : 0 < rBar) (hr1 : rBar ≤ 1)
    (hs : ∀ p ∈ frmshr, 0 < p.1 ∧ p.1 < 1 ∧ 0 < p.2 ∧ p.2 < 1 ∧ p.1 + p.2 < 1)
    (hcp : rec = RECConstants.OUTIN →
      ∀ c ∈ cpo, ∃ q, c = fpv q ∧ 0 ≤ q ∧ q < 1)
    (hlen : cpo.length = frmshr.length) :
    ∃ divr cpoOut,
      gen_divr_array frmshr rBar rec cpo = Except.ok (divr, cpoOut) ∧
      List.Forall₂ (fun (p : ℚ × ℚ) (d : FP × FP) =>
        p.1 + p.2 = 1 ∨ argminQ p = argmaxFP d) frmshr divr ∧
      (rec = RECConstants.FIXED →
        divr = frmshr.map (fun p =>
          (fpv (rBar * p.2 / (1 - p.1)), fpv (rBar * p.1 / (1 - p.2))))) := by
  cases rec with
  | FIXED =>
    have hrow : ∀ p ∈ frmshr, argminQ p = argmaxFP
        (FP.div (fpv (rBar * p.2)) (fpv (1 - p.1)),
         FP.div (fpv (rBar * p.1)) (fpv (1 - p.2))) := by
      intro p hp
      obtain ⟨h1, h1b, h2, h2b, hsum⟩ := hs p hp
      exact argmax_fixed rBar p hr0 h1 h2 hsum
    have hall := all_zip_map frmshr
      (fun p => (FP.div (fpv (rBar * p.2)) (fpv (1 - p.1)),
        FP.div (fpv (rBar * p.1)) (fpv (1 - p.2))))
      divrTestRow (fun p hp => divrTestRow_of_argmax _ _ (hrow p hp))
    refine ⟨frmshr.map (fun p =>
        (FP.div (fpv (rBar * p.2)) (fpv (1 - p.1)),
         FP.div (fpv (rBar * p.1)) (fpv (1 - p.2)))), cpo, ?_, ?_, ?_⟩
    · simp [gen_divr_array, hall]
    · rw [List.forall₂_map_right_iff]
      exact List.forall₂_same.2 (fun p hp => Or.inr (hrow p hp))
    · intro _
      refine List.map_congr_left (fun p hp => ?_)
      obtain ⟨h1, h1b, h2, h2b, hsum⟩ := hs p hp
      have hne1 : (1 - p.1) ≠ 0 := ne_of_gt (by linarith)
      have hne2 : (1 - p.2) ≠ 0 := ne_of_gt (by linarith)
      simp [FP.div, fpv, if_neg hne1, if_neg hne2]
  | INOUT =>
    have hrow : ∀ p ∈ frmshr, argminQ p = argmaxFP
        (divrFromOneMinus (inoutOneMinus rBar p) p) := by
      intro p hp
      obtain ⟨h1, h1b, h2, h2b, hsum⟩ := hs p hp
      obtain ⟨c, hc, hc0, hc1⟩ := inout_om_bounds rBar p hr0 hr1 h1 h2 h1b h2b
      rw [hc]
      exact argmax_om c p hc0 hc1 h1 h2 hsum
    have hall := all_zip_map frmshr
      (fun p => divrFromOneMinus (inoutOneMinus rBar p) p)
      divrTestRow (fun p hp => divrTestRow_of_argmax _ _ (hrow p hp))
    refine ⟨frmshr.map (fun p => divrFromOneMinus (inoutOneMinus rBar p) p),
      frmshr.map (fun p => FP.sub (fpv 1) (inoutOneMinus rBar p)), ?_, ?_, ?_⟩
    · simp [gen_divr_array, hall]
    · rw [List.forall₂_map_right_iff]
      exact List.forall₂_same.2 (fun p hp => Or.inr (hrow p hp))
    · intro h
      cases h
  | OUTIN =>
    have hrow : ∀ p cp, (p, cp) ∈ frmshr.zip cpo →
        divrTestRow p (divrFromOneMinus (FP.sub (fpv 1) cp) p) = true := by
      intro p cp hm
      obtain ⟨hpm, hcm⟩ := List.of_mem_zip hm
      obtain ⟨h1, h1b, h2, h2b, hsum⟩ := hs p hpm
      obtain ⟨q, rfl, hq0, hq1⟩ := hcp rfl cp hcm
      have hsub : FP.sub (fpv 1) (fpv q) = fpv (1 - q) := rfl
      refine divrTestRow_of_argmax _ _ ?_
      rw [hsub]
      exact argmax_om (1 - q) p (by linarith) (by linarith) h1 h2 hsum
    have hall := all_zip_map2 frmshr cpo
      (fun q => divrFromOneMinus (FP.sub (fpv 1) q.2) q.1) divrTestRow hrow
    refine ⟨(frmshr.zip cpo).map
        (fun q => divrFromOneMinus (FP.sub (fpv 1) q.2) q.1), cpo, ?_, ?_, ?_⟩
    · simp [gen_divr_array, hall]
    · refine forall₂_zip_map2 frmshr cpo _ _ hlen ?_
      intro p cp hm
      obtain ⟨hpm, hcm⟩ := List.of_mem_zip hm
      obtain ⟨h1, h1b, h2, h2b, hsum⟩ := hs p hpm
      obtain ⟨q, rfl, hq0, hq1⟩ := hcp rfl cp hcm
      refine Or.inr ?_
      have hsub : FP.sub (fpv 1) (fpv q) = fpv (1 - q) := rfl
      rw [hsub]
      exact argmax_om (1 - q) p (by linarith) (by linarith) h1 h2 hsum
    · intro h
      cases h

/-- Claim C8, witness: a concrete interior two-row share array under `FIXED`
recapture with rate 4/5 passes the consistency check (the fatal branch is
not taken). -/
theorem claim_C8_witness :
    (gen_divr_array [(1 / 4, 1 / 2), (3 / 5, 1 / 5)] (4 / 5)
        RECConstants.FIXED [FP.nan, FP.nan]).isOk = true := by
  obtain ⟨divr, cpoOut, heq, -, -⟩ :=
    claim_C8 [(1 / 4, 1 / 2), (3 / 5, 1 / 5)] (4 / 5) RECConstants.FIXED
      [FP.nan, FP.nan] (by norm_num) (by norm_num)
      (by intro p hp; fin_cases hp <;> norm_num)
      (by intro h; cases h) rfl
  rw [heq]
  rfl


/-! ## Claims about the Sample Assembler -/

unseal Rat.mul Rat.add Rat.sub Rat.inv in
/-- Claim C1, counterexample: with the default spec at sample size 2 and a
draw function hitting the numerical boundary in one row (a pair of equal
draws, so one simplex coordinate is 0), the returned share array has 1 row
while the firm-count array keeps 2 — the arrays neither all have the
requested 2 rows nor share a row count. -/
theorem claim_C1_counterexample :
    (gen_market_sample specTwo gDiscard (some [SeedSeq.ext 0, SeedSeq.ext 1])
        16).toOption.map
      (fun ms => (ms.frmshr_array.length, ms.fcounts.length)) = some (1, 2) ∧
    specTwo.sample_size = 2 := by
  decide

/-- Claim C1, amended: under the Uniform share model with no filing test and
non-MNL firm-2 margins, provided no draw row is discarded (every drawn pair
maps to a strictly interior simplex point), every array of a successfully
returned `MarketSample` has exactly the originally requested `sample_size`
rows; when a row is discarded, the share-derived arrays shrink below
`sample_size` while the NaN-filled firm-count / nth-share arrays keep the
oversampled row count (see the counterexample). -/
theorem claim_C1_amended (spec : MarketSampleSpec) (g : SeedSeq → ℕ → ℚ)
    (sl : Option (List SeedSeq)) (nt : ℕ) (ms : MarketSample)
    (hdist : spec.share_spec.1 = SHRConstants.UNI)
    (hhsr : spec.hsr_filing_test_type = SSZConstants.ONE)
    (hfm2 : spec.pcm_spec.2.1 ≠ FM2Constants.MNL)
    (hpos : ∀ sd csz r, shareRowKept (uniformSimplexRow (fillPairRow g sd csz r)) = true)
    (hok : gen_market_sample spec g sl nt = Except.ok ms) :
    ms.frmshr_array.length = spec.sample_size ∧
    ms.pcm_array.length = spec.sample_size ∧
    ms.price_array.length = spec.sample_size ∧
    ms.fcounts.length = spec.sample_size ∧
    ms.choice_prob_outgd.length = spec.sample_size ∧
    ms.nth_firm_share.length = spec.sample_size ∧
    ms.divr_array.length = spec.sample_size ∧
    ms.hhi_post.length = spec.sample_size ∧
    ms.hhi_delta.length = spec.sample_size := by
  have hc1 : ¬(spec.share_spec.2.1 = RECConstants.FIXED ∧
      spec.pcm_spec.2.1 = FM2Constants.MNL) := fun hc => hfm2 hc.2
  have hinf : inflatedSize spec = spec.sample_size := by
    rw [inflatedSize, hhsr, if_neg hfm2]
    simp [SSZConstants.val]
  simp only [gen_market_sample, if_neg hc1, hdist, hhsr, hinf] at hok
  split at hok
  · cases hok
  · rename_i seeds hparse
    split at hok
    · cases hok
    · rename_i shareData hshare
      obtain ⟨hrec, rfl⟩ := share_data_uni_ok _ g seeds.fcount seeds.mktshr nt shareData (by exact hdist) hshare
      split at hok
      · rename_i e heq
        rw [hsrMaskStage_one] at heq
        cases heq
      · rename_i mktshrArr fcounts cpo nth priceArr heq
        rw [hsrMaskStage_one] at heq
        simp only [Except.ok.injEq, Prod.mk.injEq] at heq
        obtain ⟨rfl, rfl, rfl, rfl, rfl⟩ := heq
        rw [if_neg (fun hco => hrec hco.1)] at hok
        split at hok
        · cases hok
        · rename_i divrArr cpo1 hdivr
          split at hok
          · cases hok
          · rename_i pcmArr mnlTestRows hpcm
            split at hok
            · rename_i e heq
              rw [finalStage_not_mnl _ _ _ _ _ _ _ _ _ _ hfm2] at heq
              cases heq
            · rename_i mktshrF pcmF priceF fcountsF cpoF nthF divrF heq
              rw [finalStage_not_mnl _ _ _ _ _ _ _ _ _ _ hfm2] at heq
              simp only [Except.ok.injEq, Prod.mk.injEq] at heq
              obtain ⟨rfl, rfl, rfl, rfl, rfl, rfl, rfl⟩ := heq
              simp only [Except.ok.injEq] at hok
              subst hok
              set draws := mtFillPair g seeds.mktshr spec.sample_size nt with hdrawsdef
              have hdlen : draws.length = spec.sample_size := length_mtFillPair g _ _ nt
              have hkeep : ∀ p ∈ draws, shareRowKept (uniformSimplexRow p) = true := by
                intro p hp
                obtain ⟨r, -, rfl⟩ := List.mem_map.1 hp
                exact hpos _ _ r
              obtain ⟨hm, hf, hn, hc⟩ := shares_uniform_lengths draws hkeep
              have hmlen : (gen_market_shares_uniform draws).toG.mktshr.length = spec.sample_size := by
                simp only [ShareDataSample.toG, List.length_map]
                rw [hm, hdlen]
              have hfG : (gen_market_shares_uniform draws).toG.fcounts.length = spec.sample_size := by
                simp only [ShareDataSample.toG]
                rw [hf, hdlen]
              have hnG : (gen_market_shares_uniform draws).toG.nth_firm_share.length = spec.sample_size := by
                simp only [ShareDataSample.toG]
                rw [hn, hdlen]
              have hcG : (gen_market_shares_uniform draws).toG.choice_prob_outgd.length = spec.sample_size := by
                simp only [ShareDataSample.toG]
                rw [hc, hdlen]
              have hfrm1 : (List.map (fun (t : ℚ × ℚ × List FP) => (t.1, t.2.1))
                  (gen_market_shares_uniform draws).toG.mktshr).length = spec.sample_size := by
                rw [List.length_map, hmlen]
              obtain ⟨hdvl, hcpl⟩ := divr_lengths _ _ _ _ _ _ hrec hdivr
              have hcpol : cpo1.length = spec.sample_size := by
                rw [hcpl]
                split
                · exact hfrm1
                · exact hcG
              have hpcml := pcm_lengths _ _ _ _ _ _ _ (by exact hfm2) hpcm
              have hpl : pcmArr.length = spec.sample_size := by
                rw [hpcml.1, length_mtFillPair, hfrm1]
              refine ⟨?_, ?_, ?_, ?_, ?_, ?_, ?_, ?_, ?_⟩ <;>
                simp only [List.length_map, List.length_take]
              · rw [hmlen, Nat.min_self]
              · rw [hpl, Nat.min_self]
              · rw [pr_ratio_price_length, hfrm1, Nat.min_self]
              · rw [hfG, Nat.min_self]
              · rw [hcpol, Nat.min_self]
              · rw [hnG, Nat.min_self]
              · rw [hdvl, hfrm1, Nat.min_self]
              · rw [hmlen, Nat.min_self]
              · rw [hmlen, Nat.min_self]

unseal Rat.mul Rat.add Rat.sub Rat.inv in
/-- Claim C1, witness: a concrete boundary-free run returns all arrays with
exactly the requested 2 rows. -/
theorem claim_C1_witness :
    (gen_market_sample specTwo gUniW (some [SeedSeq.ext 0, SeedSeq.ext 1])
        16).toOption.map
      (fun ms => (ms.frmshr_array.length, ms.fcounts.length,
        ms.divr_array.length)) = some (2, 2, 2) := by
  have hok : gen_market_sample specTwo gUniW
      (some [SeedSeq.ext 0, SeedSeq.ext 1]) 16 = Except.ok msTwo := by decide
  have hpos : ∀ sd csz r,
      shareRowKept (uniformSimplexRow (fillPairRow gUniW sd csz r)) = true := by
    intro sd csz r
    have h1 : 2 * (r % csz) % 2 = 0 := Nat.mul_mod_right 2 _
    have h2 : (2 * (r % csz) + 1) % 2 = 1 := by omega
    simp only [fillPairRow, gUniW, h1, h2]
    norm_num [shareRowKept, uniformSimplexRow, min_def, max_def]
  have h := claim_C1_amended specTwo gUniW (some [SeedSeq.ext 0, SeedSeq.ext 1])
    16 msTwo rfl rfl (by decide) hpos hok
  rw [hok]
  show some (msTwo.frmshr_array.length, msTwo.fcounts.length,
    msTwo.divr_array.length) = some (2, 2, 2)
  rw [h.1, h.2.2.2.1, h.2.2.2.2.2.2.1]
  rfl

unseal Rat.mul Rat.add Rat.sub Rat.inv in
/-- Claim C6, counterexample: on a concrete Uniform-share run, `hhi_delta`
is `2·s1·s2 = 1/8`, but `hhi_post` is the non-finite marker (`np.nan`), not
a finite number: the synthetic third share column holds NaN, which
propagates through the sum of squares, exactly as the source comments
intend. -/
theorem claim_C6_counterexample :
    (gen_market_sample specOne gUniW (some [SeedSeq.ext 0, SeedSeq.ext 1])
        16).toOption.map
      (fun ms => (ms.hhi_delta, ms.hhi_post)) =
      some ([1 / 8], [FP.nan]) ∧
    (1 / 8 : ℚ) = 2 * (1 / 4) * (1 / 4) := by
  decide

/-- Claim C6, amended: in every successfully returned sample, each
`hhi_delta` entry equals `2·s1·s2` for its share row; `hhi_post` is
`hhi_delta` plus the sum of squared shares over all columns, but the two
share models fill the trailing columns differently: under the Uniform model
the synthetic third column is NaN, so every `hhi_post` entry is NaN (never
a finite number), while under the Dirichlet models every trailing column is
a finite share or explicit zero padding, so each `hhi_post` entry is the
finite value `2·s1·s2 + s1² + s2² + Σ cᵢ²` over the row's trailing cells —
and the zero padding contributes zero, `hhiPostRow` being invariant under
appending zero columns. -/
theorem claim_C6_amended (spec : MarketSampleSpec) (g : SeedSeq → ℕ → ℚ)
    (sl : Option (List SeedSeq)) (nt : ℕ) (ms : MarketSample)
    (hok : gen_market_sample spec g sl nt = Except.ok ms) :
    List.Forall₂ (fun (s : ℚ × ℚ) (d : ℚ) => d = 2 * s.1 * s.2)
      ms.frmshr_array ms.hhi_delta ∧
    (spec.share_spec.1 = SHRConstants.UNI → ∀ x ∈ ms.hhi_post, x = FP.nan) ∧
    (spec.share_spec.1 ≠ SHRConstants.UNI →
      List.Forall₂ (fun (s : ℚ × ℚ) (h : FP) => ∃ cells : List ℚ,
          h = fpv (2 * s.1 * s.2 +
            (s.1 * s.1 + (s.2 * s.2 + (cells.map (fun c => c * c)).sum))))
        ms.frmshr_array ms.hhi_post) ∧
    ∀ (s1 s2 : ℚ) (rest : List FP) (k : ℕ),
      hhiPostRow (s1, s2, rest ++ List.replicate k (fpv 0)) =
        hhiPostRow (s1, s2, rest) := by
  simp only [gen_market_sample] at hok
  split at hok
  · cases hok
  · split at hok
    · cases hok
    · rename_i seeds hparse
      split at hok
      · cases hok
      · rename_i shareData hshare
        split at hok
        · cases hok
        · rename_i mktshrArr fcounts cpo nth priceArr hmask
          have hmem0 := hsrMaskStage_mem _ _ _ _ _ _ _ _ hmask
          split at hok
          · cases hok
          · split at hok
            · cases hok
            · rename_i divrArr cpo1 hdivr
              split at hok
              · cases hok
              · rename_i pcmArr mnlTestRows hpcm
                split at hok
                · cases hok
                · rename_i mktshrF pcmF priceF fcountsF cpoF nthF divrF hfin
                  have hmem1 := finalStage_mem _ _ _ _ _ _ _ _ _ _ _ _ _ _ _ _ _ hfin
                  simp only [Except.ok.injEq] at hok
                  subst hok
                  refine ⟨?_, ?_, ?_, fun s1 s2 rest k => hhiPostRow_pad s1 s2 rest k⟩
                  · refine forall₂_map_map mktshrF _ _ _ ?_
                    intro x hx
                    show hhiDeltaRow x = 2 * x.1 * x.2.1
                    simp only [hhiDeltaRow]
                    ring
                  · intro hu x hx
                    obtain ⟨t, ht, rfl⟩ := List.mem_map.1 hx
                    obtain ⟨-, heqsd⟩ := share_data_uni_ok _ g seeds.fcount
                      seeds.mktshr nt shareData (by exact hu) hshare
                    refine hhiPostRow_nan t ?_
                    have h3 : t.2.2 = [FP.nan] := by
                      subst heqsd
                      exact uniform_mktshr_third _ t (hmem0 t (hmem1 t ht))
                    rw [h3]
                    exact List.mem_singleton.2 rfl
                  · intro hne
                    have hcells : ∀ t ∈ mktshrF, ∃ cells : List ℚ,
                        t.2.2 = cells.map fpv := fun t ht =>
                      share_data_dir_cells _ g seeds.fcount seeds.mktshr nt
                        shareData (by exact hne) hshare t (hmem0 t (hmem1 t ht))
                    refine forall₂_map_map mktshrF _ _ _ ?_
                    intro x hx
                    obtain ⟨cells, hcx⟩ := hcells x hx
                    refine ⟨cells, ?_⟩
                    show hhiPostRow x = fpv (2 * x.1 * x.2.1 +
                      (x.1 * x.1 + (x.2.1 * x.2.1 +
                        (cells.map (fun c => c * c)).sum)))
                    have hx2 : hhiPostRow x = hhiPostRow (x.1, x.2.1, cells.map fpv) := by
                      rw [← hcx]
                    rw [hx2, hhiPostRow_fpv]

unseal Rat.mul Rat.add Rat.sub Rat.inv in
/-- Claim C6, witness: on the concrete one-row Uniform run, the returned
`hhi_delta` entry is `2·(1/4)·(1/4)`; on the concrete two-row flat-Dirichlet
run, every `hhi_post` entry is the finite sum `2·s1·s2 + s1² + s2² + Σ cᵢ²`
of its share row. -/
theorem claim_C6_witness :
    msOne.hhi_delta = [2 * ((1 : ℚ) / 4) * (1 / 4)] ∧
    List.Forall₂ (fun (s : ℚ × ℚ) (h : FP) => ∃ cells : List ℚ,
        h = fpv (2 * s.1 * s.2 +
          (s.1 * s.1 + (s.2 * s.2 + (cells.map (fun c => c * c)).sum))))
      msDir.frmshr_array msDir.hhi_post := by
  have hok : gen_market_sample specOne gUniW
      (some [SeedSeq.ext 0, SeedSeq.ext 1]) 16 = Except.ok msOne := by decide
  have hokD : gen_market_sample specDir gHalf none 16 = Except.ok msDir := by
    decide
  refine ⟨?_, (claim_C6_amended specDir gHalf none 16 msDir hokD).2.2.1
    (by decide)⟩
  have h := (claim_C6_amended specOne gUniW (some [SeedSeq.ext 0, SeedSeq.ext 1])
    16 msOne hok).1
  rcases h with _ | ⟨hr, -⟩
  simp only [msOne, List.cons.injEq, and_true]
  simpa using hr

end Mergeron
